import Mathlib

/-!
Shallow embedding of `libkbfs/key_bundle.go` (key-bundle data model and
device key-provisioning).  Go maps are modelled as association lists with
explicit state passing; the `Crypto` collaborator is a record of fallible
functions, with its random-generation call modelled as a function of a
call counter threaded through provisioning.  Go's `(value, err)` returns
become `Except`, where `Except.error e` models Go's `(nil, err)`.
-/

namespace Libkbfs

/-- Device key identifier (`keybase1.KID`). -/
abbrev KID := Nat

/-- User identifier (`keybase1.UID`). -/
abbrev UID := Nat

/-- Keyed-hash value used inside a server-half ID. -/
structure HMAC where
  val : Nat
  deriving DecidableEq, Repr

/-- `TLFCryptKeyServerHalfID` is the identifier type for a server-side key half. -/
structure TLFCryptKeyServerHalfID where
  ID : HMAC
  deriving DecidableEq, Repr

/-- Encrypted form of a TLF crypt key client half. -/
structure EncryptedTLFCryptKeyClientHalf where
  val : Nat
  deriving DecidableEq, Repr

/-- `TLFCryptKeyInfo` is a per-device key half entry in the `TLFKeyBundle`.
`EPubKeyIndex` is a Go `int`, modelled as `Int`. -/
structure TLFCryptKeyInfo where
  ClientHalf : EncryptedTLFCryptKeyClientHalf
  ServerHalfID : TLFCryptKeyServerHalfID
  EPubKeyIndex : Int
  deriving DecidableEq, Repr

/-- The Go zero value of `TLFCryptKeyInfo`, returned by map lookups that miss. -/
def TLFCryptKeyInfo.zero : TLFCryptKeyInfo :=
  { ClientHalf := ⟨0⟩, ServerHalfID := ⟨⟨0⟩⟩, EPubKeyIndex := 0 }

/-- A device's public crypt key; only its `KID` field is used here. -/
structure CryptPublicKey where
  KID : KID
  deriving DecidableEq, Repr

/-- The TLF's symmetric secret key. -/
structure TLFCryptKey where
  val : Nat
  deriving DecidableEq, Repr

/-- Server-side half of a TLF crypt key. -/
structure TLFCryptKeyServerHalf where
  val : Nat
  deriving DecidableEq, Repr

/-- Client-side (masked) half of a TLF crypt key. -/
structure TLFCryptKeyClientHalf where
  val : Nat
  deriving DecidableEq, Repr

/-- Ephemeral private key of one provisioning event. -/
structure TLFEphemeralPrivateKey where
  val : Nat
  deriving DecidableEq, Repr

/-- Ephemeral public key of one provisioning event. -/
structure TLFEphemeralPublicKey where
  val : Nat
  deriving DecidableEq, Repr

/-- The folder's long-term public key (`M_f`). -/
structure TLFPublicKey where
  val : Nat
  deriving DecidableEq, Repr

/-- Opaque Go `error` value. -/
structure GoError where
  msg : Nat
  deriving DecidableEq, Repr

/-- The `Crypto` collaborator: a record of fallible operations.
`makeRandomTLFCryptKeyServerHalf` takes the index of the random-generation
call (the Go interface is a stateful RNG; the index is threaded through
provisioning), the other operations are functions of their inputs. -/
structure Crypto where
  makeRandomTLFCryptKeyServerHalf : Nat → Except GoError TLFCryptKeyServerHalf
  maskTLFCryptKey : TLFCryptKeyServerHalf → TLFCryptKey →
    Except GoError TLFCryptKeyClientHalf
  encryptTLFCryptKeyClientHalf : TLFEphemeralPrivateKey → CryptPublicKey →
    TLFCryptKeyClientHalf → Except GoError EncryptedTLFCryptKeyClientHalf
  getTLFCryptKeyServerHalfID : UID → KID → TLFCryptKeyServerHalf →
    Except GoError TLFCryptKeyServerHalfID

/-- First-match lookup in an association list (Go map read `m[k]`). -/
def alistFind? {β : Type} : List (Nat × β) → Nat → Option β
  | [], _ => none
  | (k, v) :: rest, key => if k = key then some v else alistFind? rest key

/-- Update-or-append in an association list (Go map write `m[k] = v`). -/
def alistSet {β : Type} : List (Nat × β) → Nat → β → List (Nat × β)
  | [], key, v => [(key, v)]
  | (k, w) :: rest, key, v =>
    if k = key then (key, v) :: rest else (k, w) :: alistSet rest key v

/-- `UserCryptKeyBundle` is a map from a user's devices (by KID) to the
TLF's symmetric secret key information. -/
abbrev UserCryptKeyBundle := List (KID × TLFCryptKeyInfo)

/-- `TLFKeyMap` maps users to their per-user crypt key bundles. -/
abbrev TLFKeyMap := List (UID × UserCryptKeyBundle)

/-- `map[keybase1.KID]TLFCryptKeyServerHalf` returned by `fillInDeviceInfo`. -/
abbrev deviceServerMap := List (KID × TLFCryptKeyServerHalf)

/-- `serverKeyMap` from the source: user → device → fresh server half. -/
abbrev serverKeyMap := List (UID × deviceServerMap)

/-- Record lookup through a `TLFKeyMap`: the per-device record of
`(u, kid)`, or `none` when the user or the device is absent. -/
def TLFKeyMap.record? (m : TLFKeyMap) (u : UID) (kid : KID) :
    Option TLFCryptKeyInfo :=
  match alistFind? m u with
  | some b => alistFind? b kid
  | none => none

/-- Body of the per-device loop of `fillInDeviceInfo`: create a random
server half, mask it with the TLF key, encrypt the client half, compute
the server-half ID; the first failing step aborts. -/
def processDevice (crypto : Crypto) (uid : UID) (tlfCryptKey : TLFCryptKey)
    (ePrivKey : TLFEphemeralPrivateKey) (ePubIndex : Int)
    (k : CryptPublicKey) (rc : Nat) :
    Except GoError (TLFCryptKeyInfo × TLFCryptKeyServerHalf) :=
  match crypto.makeRandomTLFCryptKeyServerHalf rc with
  | .error e => .error e
  | .ok serverHalf =>
    match crypto.maskTLFCryptKey serverHalf tlfCryptKey with
    | .error e => .error e
    | .ok clientHalf =>
      match crypto.encryptTLFCryptKeyClientHalf ePrivKey k clientHalf with
      | .error e => .error e
      | .ok encryptedClientHalf =>
        match crypto.getTLFCryptKeyServerHalfID uid k.KID serverHalf with
        | .error e => .error e
        | .ok serverHalfID =>
          .ok ({ ClientHalf := encryptedClientHalf,
                 ServerHalfID := serverHalfID,
                 EPubKeyIndex := ePubIndex }, serverHalf)

/-- `UserCryptKeyBundle.fillInDeviceInfo`: walk the device list, skip
devices that already have an entry, provision the rest.  Returns the
mutated bundle, the next RNG call index, and (Go-style) either the map of
freshly generated server halves or the first error.  On error the bundle
mutations made so far are kept (Go mutates the map in place). -/
def fillInDeviceInfo (crypto : Crypto) (uckb : UserCryptKeyBundle) (uid : UID)
    (tlfCryptKey : TLFCryptKey) (ePrivKey : TLFEphemeralPrivateKey)
    (ePubIndex : Int) (publicKeys : List CryptPublicKey) (rc : Nat) :
    UserCryptKeyBundle × Nat × Except GoError deviceServerMap :=
  match publicKeys with
  | [] => (uckb, rc, .ok [])
  | k :: rest =>
    match alistFind? uckb k.KID with
    | some _ =>
      fillInDeviceInfo crypto uckb uid tlfCryptKey ePrivKey ePubIndex rest rc
    | none =>
      match processDevice crypto uid tlfCryptKey ePrivKey ePubIndex k rc with
      | .error e => (uckb, rc, .error e)
      | .ok (info, serverHalf) =>
        match fillInDeviceInfo crypto (uckb ++ [(k.KID, info)]) uid
            tlfCryptKey ePrivKey ePubIndex rest (rc + 1) with
        | (uckb', rc', .ok sm) => (uckb', rc', .ok ((k.KID, serverHalf) :: sm))
        | (uckb', rc', .error e) => (uckb', rc', .error e)

/-- `TLFWriterKeyBundle`: per-writer bundles, the folder public key, and
the append-only ephemeral public key list. -/
structure TLFWriterKeyBundle where
  WKeys : TLFKeyMap
  TLFPublicKey : TLFPublicKey
  TLFEphemeralPublicKeys : List TLFEphemeralPublicKey
  deriving DecidableEq, Repr

/-- `TLFReaderKeyBundle`: per-reader bundles. -/
structure TLFReaderKeyBundle where
  RKeys : TLFKeyMap
  deriving DecidableEq, Repr

/-- `TLFKeyBundle`: writer and reader bundles of one generation (the Go
struct embeds both by pointer; modelled as explicit composition). -/
structure TLFKeyBundle where
  writer : TLFWriterKeyBundle
  reader : TLFReaderKeyBundle
  deriving DecidableEq, Repr

/-- `fillInDevicesAndServerMap`: iterate the target users (Go map
iteration modelled as list order), ensuring a per-user bundle exists,
provisioning that user's devices, and collecting non-empty server-half
maps into `newServerKeys` (overwriting any previous entry for the user).
The `ePubKey` parameter is passed but unused, as in the source. -/
def fillInDevicesAndServerMap (crypto : Crypto) (newIndex : Int)
    (cryptKeys : List (UID × List CryptPublicKey)) (cryptBundles : TLFKeyMap)
    (ePubKey : TLFEphemeralPublicKey) (ePrivKey : TLFEphemeralPrivateKey)
    (tlfCryptKey : TLFCryptKey) (newServerKeys : serverKeyMap) (rc : Nat) :
    TLFKeyMap × serverKeyMap × Nat × Option GoError :=
  match cryptKeys with
  | [] => (cryptBundles, newServerKeys, rc, none)
  | (u, keys) :: rest =>
    let bundle := (alistFind? cryptBundles u).getD []
    match fillInDeviceInfo crypto bundle u tlfCryptKey ePrivKey newIndex
        keys rc with
    | (bundle', rc', .error e) =>
      (alistSet cryptBundles u bundle', newServerKeys, rc', some e)
    | (bundle', rc', .ok serverMap) =>
      let cryptBundles' := alistSet cryptBundles u bundle'
      let newServerKeys' :=
        if serverMap.length > 0 then alistSet newServerKeys u serverMap
        else newServerKeys
      fillInDevicesAndServerMap crypto newIndex rest cryptBundles' ePubKey
        ePrivKey tlfCryptKey newServerKeys' rc'

/-- `TLFKeyBundle.fillInDevices`: append the ephemeral public key to the
writer bundle's list, compute the new index (`length - 1`), then fill in
the writer and then the reader per-user bundles.  The appended key and
any records written before a failure are kept (the Go receiver reaches
the caller's bundle through embedded pointers). -/
def TLFKeyBundle.fillInDevices (tkb : TLFKeyBundle) (crypto : Crypto)
    (wKeys rKeys : List (UID × List CryptPublicKey))
    (ePubKey : TLFEphemeralPublicKey) (ePrivKey : TLFEphemeralPrivateKey)
    (tlfCryptKey : TLFCryptKey) (rc : Nat) :
    TLFKeyBundle × Nat × Except GoError serverKeyMap :=
  let ePubs := tkb.writer.TLFEphemeralPublicKeys ++ [ePubKey]
  let newIndex : Int := (ePubs.length : Int) - 1
  let setWriter : TLFKeyMap → TLFWriterKeyBundle := fun wk =>
    { tkb.writer with WKeys := wk, TLFEphemeralPublicKeys := ePubs }
  match fillInDevicesAndServerMap crypto newIndex wKeys tkb.writer.WKeys
      ePubKey ePrivKey tlfCryptKey [] rc with
  | (wk, _, rc1, some e) =>
    ({ writer := setWriter wk, reader := tkb.reader }, rc1, .error e)
  | (wk, nsk, rc1, none) =>
    match fillInDevicesAndServerMap crypto newIndex rKeys tkb.reader.RKeys
        ePubKey ePrivKey tlfCryptKey nsk rc1 with
    | (rk, _, rc2, some e) =>
      ({ writer := setWriter wk, reader := { RKeys := rk } }, rc2, .error e)
    | (rk, nsk2, rc2, none) =>
      ({ writer := setWriter wk, reader := { RKeys := rk } }, rc2, .ok nsk2)

/-- `TLFKeyBundle.GetTLFCryptKeyInfo`: check the user's writer per-user
bundle if the user has one (the reader bundle is consulted only when the
user is absent from the writer map); the Go `error` result is always
`nil` and is dropped from the model. -/
def TLFKeyBundle.getTLFCryptKeyInfo (tkb : TLFKeyBundle) (user : UID)
    (currentCryptPublicKey : CryptPublicKey) : TLFCryptKeyInfo × Bool :=
  let key := currentCryptPublicKey.KID
  match alistFind? tkb.writer.WKeys user with
  | some u =>
    match alistFind? u key with
    | some info => (info, true)
    | none => (TLFCryptKeyInfo.zero, false)
  | none =>
    match alistFind? tkb.reader.RKeys user with
    | some u =>
      match alistFind? u key with
      | some info => (info, true)
      | none => (TLFCryptKeyInfo.zero, false)
    | none => (TLFCryptKeyInfo.zero, false)

/-- Failures of `GetTLFEphemeralPublicKey`.  `indexOutOfRange` models the
Go runtime panic raised by indexing the ephemeral key slice out of
bounds. -/
inductive KeyLookupFailure where
  | tlfEphemeralPublicKeyNotFound (user : UID) (key : KID)
  | indexOutOfRange
  deriving DecidableEq, Repr

/-- Go slice indexing `l[i]` with an `int` index: `none` models the
out-of-range panic. -/
def goIndex {α : Type} (l : List α) (i : Int) : Option α :=
  if i < 0 then none else l.get? i.toNat

/-- `TLFKeyBundle.GetTLFEphemeralPublicKey`: look up the per-device
record; if absent fail with `TLFEphemeralPublicKeyNotFoundError`,
otherwise index the writer bundle's ephemeral key list with the record's
stored index. -/
def TLFKeyBundle.getTLFEphemeralPublicKey (tkb : TLFKeyBundle) (user : UID)
    (currentCryptPublicKey : CryptPublicKey) :
    Except KeyLookupFailure TLFEphemeralPublicKey :=
  let key := currentCryptPublicKey.KID
  let res := tkb.getTLFCryptKeyInfo user currentCryptPublicKey
  if res.2 then
    match goIndex tkb.writer.TLFEphemeralPublicKeys res.1.EPubKeyIndex with
    | some v => .ok v
    | none => .error .indexOutOfRange
  else
    .error (.tlfEphemeralPublicKeyNotFound user key)

/-- `TLFWriterKeyBundle.IsWriter`: membership of the device in the
user's writer bundle. -/
def TLFWriterKeyBundle.isWriter (tkb : TLFWriterKeyBundle) (user : UID)
    (deviceKID : KID) : Bool :=
  (TLFKeyMap.record? tkb.WKeys user deviceKID).isSome

/-- `TLFReaderKeyBundle.IsReader`: membership of the device in the
user's reader bundle. -/
def TLFReaderKeyBundle.isReader (trb : TLFReaderKeyBundle) (user : UID)
    (deviceKID : KID) : Bool :=
  (TLFKeyMap.record? trb.RKeys user deviceKID).isSome

/-- A generation history of writer bundles (`TLFWriterKeyGenerations`). -/
abbrev TLFWriterKeyGenerations := List TLFWriterKeyBundle

/-- A generation history of reader bundles (`TLFReaderKeyGenerations`). -/
abbrev TLFReaderKeyGenerations := List TLFReaderKeyBundle

/-- `TLFWriterKeyGenerations.GetKeyGeneration`. -/
def TLFWriterKeyGenerations.getKeyGeneration
    (tkg : TLFWriterKeyGenerations) : Nat :=
  tkg.length

/-- `TLFReaderKeyGenerations.GetKeyGeneration`. -/
def TLFReaderKeyGenerations.getKeyGeneration
    (tkg : TLFReaderKeyGenerations) : Nat :=
  tkg.length

/-- `TLFWriterKeyGenerations.IsWriter`: false below generation 1,
otherwise delegate to the bundle at index `keyGen - 1`. -/
def TLFWriterKeyGenerations.isWriter (tkg : TLFWriterKeyGenerations)
    (user : UID) (deviceKID : KID) : Bool :=
  let keyGen := tkg.getKeyGeneration
  if keyGen < 1 then false
  else
    match tkg.get? (keyGen - 1) with
    | some b => b.isWriter user deviceKID
    | none => false

/-- `TLFReaderKeyGenerations.IsReader`: false below generation 1,
otherwise delegate to the bundle at index `keyGen - 1`. -/
def TLFReaderKeyGenerations.isReader (tkg : TLFReaderKeyGenerations)
    (user : UID) (deviceKID : KID) : Bool :=
  let keyGen := tkg.getKeyGeneration
  if keyGen < 1 then false
  else
    match tkg.get? (keyGen - 1) with
    | some b => b.isReader user deviceKID
    | none => false

/-! ### Association-list lemmas -/

theorem alistFind?_append {β : Type} (l s : List (Nat × β)) (key : Nat) :
    alistFind? (l ++ s) key =
      match alistFind? l key with
      | some v => some v
      | none => alistFind? s key := by
  induction l with
  | nil => simp [alistFind?]
  | cons p rest ih =>
    obtain ⟨k, v⟩ := p
    by_cases h : k = key <;> simp [alistFind?, h, ih]

theorem alistFind?_some_mem {β : Type} {l : List (Nat × β)} {key : Nat}
    {v : β} (h : alistFind? l key = some v) : (key, v) ∈ l := by
  induction l with
  | nil => simp [alistFind?] at h
  | cons p rest ih =>
    obtain ⟨k, w⟩ := p
    by_cases hk : k = key
    · subst hk
      simp [alistFind?] at h
      simp [h]
    · simp [alistFind?, hk] at h
      exact List.mem_cons_of_mem _ (ih h)

theorem alistSet_find?_self {β : Type} (l : List (Nat × β)) (key : Nat)
    (v : β) : alistFind? (alistSet l key v) key = some v := by
  induction l with
  | nil => simp [alistSet, alistFind?]
  | cons p rest ih =>
    obtain ⟨k, w⟩ := p
    by_cases hk : k = key <;> simp [alistSet, alistFind?, hk, ih]

theorem alistSet_find?_ne {β : Type} (l : List (Nat × β)) (key : Nat)
    (v : β) (key' : Nat) (hne : key' ≠ key) :
    alistFind? (alistSet l key v) key' = alistFind? l key' := by
  have hkk : key ≠ key' := Ne.symm hne
  induction l with
  | nil => simp [alistSet, alistFind?, hkk]
  | cons p rest ih =>
    obtain ⟨k, w⟩ := p
    by_cases hk : k = key
    · subst hk
      simp [alistSet, alistFind?, hkk]
    · by_cases hk' : k = key' <;> simp [alistSet, alistFind?, hk, hk', hne, ih]

theorem mem_alistSet {β : Type} {l : List (Nat × β)} {key : Nat} {v : β}
    {p : Nat × β} (h : p ∈ alistSet l key v) : p ∈ l ∨ p = (key, v) := by
  induction l with
  | nil => simp [alistSet] at h; simp [h]
  | cons q rest ih =>
    obtain ⟨k, w⟩ := q
    by_cases hk : k = key
    · subst hk
      simp [alistSet] at h
      rcases h with h | h
      · right; simp [h]
      · left; exact List.mem_cons_of_mem _ h
    · simp [alistSet, hk] at h
      rcases h with h | h
      · left; simp [h]
      · rcases ih h with h' | h'
        · left; exact List.mem_cons_of_mem _ h'
        · right; exact h'

theorem alistFind?_head {β : Type} (k : Nat) (v : β) (rest : List (Nat × β)) :
    alistFind? ((k, v) :: rest) k = some v := by
  simp [alistFind?]

/-! ### Structure lemmas about `fillInDeviceInfo` -/

theorem processDevice_ok_index (crypto : Crypto) (uid : UID)
    (tlfCryptKey : TLFCryptKey) (ePrivKey : TLFEphemeralPrivateKey)
    (ePubIndex : Int) (k : CryptPublicKey) (rc : Nat)
    (info : TLFCryptKeyInfo) (sh : TLFCryptKeyServerHalf)
    (h : processDevice crypto uid tlfCryptKey ePrivKey ePubIndex k rc =
      .ok (info, sh)) : info.EPubKeyIndex = ePubIndex := by
  unfold processDevice at h
  split at h
  · exact absurd h (by simp)
  split at h
  · exact absurd h (by simp)
  split at h
  · exact absurd h (by simp)
  split at h
  · exact absurd h (by simp)
  injection h with h'
  injection h' with h1 h2
  rw [← h1]

/-- Any run of `fillInDeviceInfo` (successful or not) only appends new
records, and every appended record carries `ePubIndex`. -/
theorem fillInDeviceInfo_suffix (crypto : Crypto) (uid : UID)
    (tlfCryptKey : TLFCryptKey) (ePrivKey : TLFEphemeralPrivateKey)
    (ePubIndex : Int) :
    ∀ (publicKeys : List CryptPublicKey) (uckb : UserCryptKeyBundle)
      (rc : Nat),
    ∃ suf,
      (fillInDeviceInfo crypto uckb uid tlfCryptKey ePrivKey ePubIndex
        publicKeys rc).1 = uckb ++ suf ∧
      ∀ p ∈ suf, p.2.EPubKeyIndex = ePubIndex := by
  intro publicKeys
  induction publicKeys with
  | nil =>
    intro uckb rc
    exact ⟨[], by simp [fillInDeviceInfo], by simp⟩
  | cons k rest ih =>
    intro uckb rc
    cases hfind : alistFind? uckb k.KID with
    | some info0 =>
      obtain ⟨suf, hsuf, hall⟩ := ih uckb rc
      exact ⟨suf, by simp [fillInDeviceInfo, hfind, hsuf], hall⟩
    | none =>
      cases hproc : processDevice crypto uid tlfCryptKey ePrivKey ePubIndex
          k rc with
      | error e =>
        exact ⟨[], by simp [fillInDeviceInfo, hfind, hproc], by simp⟩
      | ok pr =>
        obtain ⟨info, serverHalf⟩ := pr
        obtain ⟨suf, hsuf, hall⟩ := ih (uckb ++ [(k.KID, info)]) (rc + 1)
        refine ⟨(k.KID, info) :: suf, ?_, ?_⟩
        · rcases hrec : fillInDeviceInfo crypto (uckb ++ [(k.KID, info)]) uid
              tlfCryptKey ePrivKey ePubIndex rest (rc + 1) with ⟨uckb', rc', res⟩
          rw [hrec] at hsuf
          simp only at hsuf
          cases res <;>
            simp [fillInDeviceInfo, hfind, hproc, hrec, hsuf]
        · intro p hp
          rcases List.mem_cons.mp hp with h | h
          · rw [h]
            exact processDevice_ok_index _ _ _ _ _ _ _ _ _ hproc
          · exact hall p h

/-- Records present before `fillInDeviceInfo` are still present, unchanged,
afterwards (also when the call fails). -/
theorem fillInDeviceInfo_mono (crypto : Crypto) (uid : UID)
    (tlfCryptKey : TLFCryptKey) (ePrivKey : TLFEphemeralPrivateKey)
    (ePubIndex : Int) (publicKeys : List CryptPublicKey)
    (uckb : UserCryptKeyBundle) (rc : Nat) (kid : KID)
    (info : TLFCryptKeyInfo) (h : alistFind? uckb kid = some info) :
    alistFind? (fillInDeviceInfo crypto uckb uid tlfCryptKey ePrivKey
      ePubIndex publicKeys rc).1 kid = some info := by
  obtain ⟨suf, hsuf, _⟩ := fillInDeviceInfo_suffix crypto uid tlfCryptKey
    ePrivKey ePubIndex publicKeys uckb rc
  rw [hsuf, alistFind?_append, h]

/-- Per-device lookup after `fillInDeviceInfo`: each key either keeps its
old binding or was newly inserted with index `ePubIndex`. -/
theorem fillInDeviceInfo_find? (crypto : Crypto) (uid : UID)
    (tlfCryptKey : TLFCryptKey) (ePrivKey : TLFEphemeralPrivateKey)
    (ePubIndex : Int) (publicKeys : List CryptPublicKey)
    (uckb : UserCryptKeyBundle) (rc : Nat) (kid : KID) :
    alistFind? (fillInDeviceInfo crypto uckb uid tlfCryptKey ePrivKey
        ePubIndex publicKeys rc).1 kid = alistFind? uckb kid ∨
      (alistFind? uckb kid = none ∧
        ∃ info, alistFind? (fillInDeviceInfo crypto uckb uid tlfCryptKey
          ePrivKey ePubIndex publicKeys rc).1 kid = some info ∧
          info.EPubKeyIndex = ePubIndex) := by
  obtain ⟨suf, hsuf, hall⟩ := fillInDeviceInfo_suffix crypto uid tlfCryptKey
    ePrivKey ePubIndex publicKeys uckb rc
  rw [hsuf, alistFind?_append]
  cases hold : alistFind? uckb kid with
  | some info0 => exact Or.inl rfl
  | none =>
    cases hsufFind : alistFind? suf kid with
    | none => exact Or.inl rfl
    | some info =>
      exact Or.inr ⟨rfl, info, rfl,
        hall _ (alistFind?_some_mem hsufFind)⟩

/-- A failing `fillInDeviceInfo` run decomposes as: a successfully
processed prefix of the device list, then a fresh device on which a
crypto step fails; the returned bundle and call counter are exactly those
reached after the prefix (later devices are not processed), and the
reported error is the failing step's error. -/
theorem fillInDeviceInfo_error_decomp (crypto : Crypto) (uid : UID)
    (tlfCryptKey : TLFCryptKey) (ePrivKey : TLFEphemeralPrivateKey)
    (ePubIndex : Int) :
    ∀ (publicKeys : List CryptPublicKey) (uckb : UserCryptKeyBundle)
      (rc : Nat) (uckb' : UserCryptKeyBundle) (rc' : Nat) (e : GoError),
    fillInDeviceInfo crypto uckb uid tlfCryptKey ePrivKey ePubIndex
      publicKeys rc = (uckb', rc', .error e) →
    ∃ pre k post sm0, publicKeys = pre ++ k :: post ∧
      fillInDeviceInfo crypto uckb uid tlfCryptKey ePrivKey ePubIndex
        pre rc = (uckb', rc', .ok sm0) ∧
      alistFind? uckb' k.KID = none ∧
      processDevice crypto uid tlfCryptKey ePrivKey ePubIndex k rc' =
        .error e := by
  intro publicKeys
  induction publicKeys with
  | nil =>
    intro uckb rc uckb' rc' e h
    simp [fillInDeviceInfo] at h
  | cons k rest ih =>
    intro uckb rc uckb' rc' e h
    cases hfind : alistFind? uckb k.KID with
    | some info0 =>
      rw [show fillInDeviceInfo crypto uckb uid tlfCryptKey ePrivKey
            ePubIndex (k :: rest) rc =
          fillInDeviceInfo crypto uckb uid tlfCryptKey ePrivKey ePubIndex
            rest rc by simp [fillInDeviceInfo, hfind]] at h
      obtain ⟨pre, k', post, sm0, hsplit, hpre, hnone, hproc⟩ :=
        ih uckb rc uckb' rc' e h
      exact ⟨k :: pre, k', post, sm0, by simp [hsplit],
        by simp [fillInDeviceInfo, hfind, hpre], hnone, hproc⟩
    | none =>
      cases hproc : processDevice crypto uid tlfCryptKey ePrivKey ePubIndex
          k rc with
      | error e0 =>
        have h' : (uckb, rc, (.error e0 : Except GoError deviceServerMap)) =
            (uckb', rc', .error e) := by
          rw [← h]; simp [fillInDeviceInfo, hfind, hproc]
        obtain ⟨h1, h2, h3⟩ : uckb = uckb' ∧ rc = rc' ∧ e0 = e := by
          simpa using h'
        rw [← h1, ← h2, ← h3]
        exact ⟨[], k, rest, [], rfl, by simp [fillInDeviceInfo], hfind, hproc⟩
      | ok pr =>
        obtain ⟨info, serverHalf⟩ := pr
        rcases hrec : fillInDeviceInfo crypto (uckb ++ [(k.KID, info)]) uid
            tlfCryptKey ePrivKey ePubIndex rest (rc + 1) with ⟨u2, r2, res2⟩
        cases res2 with
        | ok sm2 =>
          rw [show fillInDeviceInfo crypto uckb uid tlfCryptKey ePrivKey
                ePubIndex (k :: rest) rc =
              (u2, r2, .ok ((k.KID, serverHalf) :: sm2)) by
            simp [fillInDeviceInfo, hfind, hproc, hrec]] at h
          exact absurd h (by simp)
        | error e2 =>
          rw [show fillInDeviceInfo crypto uckb uid tlfCryptKey ePrivKey
                ePubIndex (k :: rest) rc = (u2, r2, .error e2) by
            simp [fillInDeviceInfo, hfind, hproc, hrec]] at h
          obtain ⟨h1, h2, h3⟩ : u2 = uckb' ∧ r2 = rc' ∧ e2 = e := by
            simpa using h
          rw [← h1, ← h2, ← h3]
          obtain ⟨pre, k', post, sm0, hsplit, hpre, hnone, hproc'⟩ :=
            ih (uckb ++ [(k.KID, info)]) (rc + 1) u2 r2 e2 hrec
          exact ⟨k :: pre, k', post, (k.KID, serverHalf) :: sm0,
            by simp [hsplit],
            by simp [fillInDeviceInfo, hfind, hproc, hpre], hnone, hproc'⟩

/-- On success, the returned server-half map has an entry for exactly the
devices that were newly inserted into the bundle by this call. -/
theorem fillInDeviceInfo_ok_serverMap (crypto : Crypto) (uid : UID)
    (tlfCryptKey : TLFCryptKey) (ePrivKey : TLFEphemeralPrivateKey)
    (ePubIndex : Int) :
    ∀ (publicKeys : List CryptPublicKey) (uckb : UserCryptKeyBundle)
      (rc : Nat) (uckb' : UserCryptKeyBundle) (rc' : Nat)
      (sm : deviceServerMap),
    fillInDeviceInfo crypto uckb uid tlfCryptKey ePrivKey ePubIndex
      publicKeys rc = (uckb', rc', .ok sm) →
    ∀ kid, (∃ sh, alistFind? sm kid = some sh) ↔
      (alistFind? uckb kid = none ∧
        ∃ info, alistFind? uckb' kid = some info) := by
  intro publicKeys
  induction publicKeys with
  | nil =>
    intro uckb rc uckb' rc' sm h kid
    obtain ⟨h1, h2, h3⟩ : uckb = uckb' ∧ rc = rc' ∧ ([] : deviceServerMap)
        = sm := by
      simpa [fillInDeviceInfo] using h
    subst h1; subst h3
    simp [alistFind?]
    intro hnone info hsome
    rw [hnone] at hsome
    exact absurd hsome (by simp)
  | cons k rest ih =>
    intro uckb rc uckb' rc' sm h kid
    cases hfind : alistFind? uckb k.KID with
    | some info0 =>
      rw [show fillInDeviceInfo crypto uckb uid tlfCryptKey ePrivKey
            ePubIndex (k :: rest) rc =
          fillInDeviceInfo crypto uckb uid tlfCryptKey ePrivKey ePubIndex
            rest rc by simp [fillInDeviceInfo, hfind]] at h
      exact ih uckb rc uckb' rc' sm h kid
    | none =>
      cases hproc : processDevice crypto uid tlfCryptKey ePrivKey ePubIndex
          k rc with
      | error e0 =>
        rw [show fillInDeviceInfo crypto uckb uid tlfCryptKey ePrivKey
              ePubIndex (k :: rest) rc = (uckb, rc, .error e0) by
          simp [fillInDeviceInfo, hfind, hproc]] at h
        exact absurd h (by simp)
      | ok pr =>
        obtain ⟨info, serverHalf⟩ := pr
        rcases hrec : fillInDeviceInfo crypto (uckb ++ [(k.KID, info)]) uid
            tlfCryptKey ePrivKey ePubIndex rest (rc + 1) with ⟨u2, r2, res2⟩
        cases res2 with
        | error e2 =>
          rw [show fillInDeviceInfo crypto uckb uid tlfCryptKey ePrivKey
                ePubIndex (k :: rest) rc = (u2, r2, .error e2) by
            simp [fillInDeviceInfo, hfind, hproc, hrec]] at h
          exact absurd h (by simp)
        | ok sm2 =>
          rw [show fillInDeviceInfo crypto uckb uid tlfCryptKey ePrivKey
                ePubIndex (k :: rest) rc =
              (u2, r2, .ok ((k.KID, serverHalf) :: sm2)) by
            simp [fillInDeviceInfo, hfind, hproc, hrec]] at h
          obtain ⟨h1, h2, h3⟩ : u2 = uckb' ∧ r2 = rc' ∧
              (k.KID, serverHalf) :: sm2 = sm := by
            simpa using h
          rw [← h1, ← h3]
          by_cases hkid : k.KID = kid
          · subst hkid
            have hin : alistFind? (uckb ++ [(k.KID, info)]) k.KID =
                some info := by
              rw [alistFind?_append, hfind]
              simp [alistFind?]
            have hafter := fillInDeviceInfo_mono crypto uid tlfCryptKey
              ePrivKey ePubIndex rest (uckb ++ [(k.KID, info)]) (rc + 1)
              k.KID info hin
            rw [hrec] at hafter
            simp only at hafter
            constructor
            · intro _
              exact ⟨hfind, info, hafter⟩
            · intro _
              exact ⟨serverHalf, alistFind?_head _ _ _⟩
          · have hiff := ih (uckb ++ [(k.KID, info)]) (rc + 1) u2 r2
              sm2 hrec kid
            have hpre : alistFind? (uckb ++ [(k.KID, info)]) kid =
                alistFind? uckb kid := by
              rw [alistFind?_append]
              cases hold : alistFind? uckb kid with
              | some v => rfl
              | none => simp [alistFind?, hkid]
            rw [hpre] at hiff
            have hsm : alistFind? ((k.KID, serverHalf) :: sm2) kid =
                alistFind? sm2 kid := by
              simp [alistFind?, hkid]
            rw [hsm]
            exact hiff

/-! ### Record-extension relations at the `TLFKeyMap` level -/

/-- `m'` extends `m`: every `(user, device)` record is unchanged or was
newly inserted with ephemeral index `idx`. -/
def recordExtends (idx : Int) (m m' : TLFKeyMap) : Prop :=
  ∀ u kid, TLFKeyMap.record? m' u kid = TLFKeyMap.record? m u kid ∨
    (TLFKeyMap.record? m u kid = none ∧
      ∃ info, TLFKeyMap.record? m' u kid = some info ∧
        info.EPubKeyIndex = idx)

/-- Entry-level extension: every record entry stored in `m'` either was
stored in `m` or carries ephemeral index `idx`. -/
def entryExtends (idx : Int) (m m' : TLFKeyMap) : Prop :=
  ∀ p ∈ m', ∀ q ∈ p.2,
    (∃ b, (p.1, b) ∈ m ∧ q ∈ b) ∨ q.2.EPubKeyIndex = idx

theorem recordExtends_refl (idx : Int) (m : TLFKeyMap) :
    recordExtends idx m m := fun _ _ => Or.inl rfl

theorem entryExtends_refl (idx : Int) (m : TLFKeyMap) :
    entryExtends idx m m := fun p hp q hq => Or.inl ⟨p.2, by simp [hp], hq⟩

theorem recordExtends_trans {idx : Int} {m1 m2 m3 : TLFKeyMap}
    (h12 : recordExtends idx m1 m2) (h23 : recordExtends idx m2 m3) :
    recordExtends idx m1 m3 := by
  intro u kid
  rcases h23 u kid with h23' | ⟨h2none, info, h3some, hidx⟩
  · rcases h12 u kid with h12' | ⟨h1none, info, h2some, hidx⟩
    · exact Or.inl (h23'.trans h12')
    · exact Or.inr ⟨h1none, info, h23'.trans h2some, hidx⟩
  · rcases h12 u kid with h12' | ⟨h1none, info', h2some, hidx'⟩
    · exact Or.inr ⟨h12' ▸ h2none, info, h3some, hidx⟩
    · rw [h2none] at h2some
      exact absurd h2some (by simp)

theorem entryExtends_trans {idx : Int} {m1 m2 m3 : TLFKeyMap}
    (h12 : entryExtends idx m1 m2) (h23 : entryExtends idx m2 m3) :
    entryExtends idx m1 m3 := by
  intro p hp q hq
  rcases h23 p hp q hq with ⟨b, hb, hqb⟩ | hidx
  · exact h12 (p.1, b) hb q hqb
  · exact Or.inr hidx

theorem recordExtends_mono {idx : Int} {m m' : TLFKeyMap}
    (h : recordExtends idx m m') (u : UID) (kid : KID)
    (info : TLFCryptKeyInfo) (hsome : TLFKeyMap.record? m u kid = some info) :
    TLFKeyMap.record? m' u kid = some info := by
  rcases h u kid with h' | ⟨hnone, _, _, _⟩
  · exact h'.trans hsome
  · rw [hnone] at hsome
    exact absurd hsome (by simp)

theorem TLFKeyMap.record?_eq_getD (m : TLFKeyMap) (u : UID) (kid : KID) :
    m.record? u kid = alistFind? ((alistFind? m u).getD []) kid := by
  unfold TLFKeyMap.record?
  cases h : alistFind? m u <;> simp [alistFind?]

/-- One user-processing step of `fillInDevicesAndServerMap` (ensure the
user's bundle, fill in the devices, write the bundle back) is a record
extension with index `idx`. -/
theorem step_recordExtends (crypto : Crypto) (uid : UID)
    (tlfCryptKey : TLFCryptKey) (ePrivKey : TLFEphemeralPrivateKey)
    (idx : Int) (m : TLFKeyMap) (keys : List CryptPublicKey) (rc : Nat) :
    recordExtends idx m (alistSet m uid
      (fillInDeviceInfo crypto ((alistFind? m uid).getD []) uid tlfCryptKey
        ePrivKey idx keys rc).1) := by
  intro u kid
  by_cases hu : u = uid
  · subst hu
    rw [show TLFKeyMap.record? (alistSet m u
          (fillInDeviceInfo crypto ((alistFind? m u).getD []) u tlfCryptKey
            ePrivKey idx keys rc).1) u kid =
        alistFind? (fillInDeviceInfo crypto ((alistFind? m u).getD []) u
          tlfCryptKey ePrivKey idx keys rc).1 kid by
      unfold TLFKeyMap.record?
      rw [alistSet_find?_self]]
    rw [TLFKeyMap.record?_eq_getD]
    exact fillInDeviceInfo_find? crypto u tlfCryptKey ePrivKey idx keys
      ((alistFind? m u).getD []) rc kid
  · left
    unfold TLFKeyMap.record?
    rw [alistSet_find?_ne _ _ _ _ hu]

/-- One user-processing step is also an entry-level extension. -/
theorem step_entryExtends (crypto : Crypto) (uid : UID)
    (tlfCryptKey : TLFCryptKey) (ePrivKey : TLFEphemeralPrivateKey)
    (idx : Int) (m : TLFKeyMap) (keys : List CryptPublicKey) (rc : Nat) :
    entryExtends idx m (alistSet m uid
      (fillInDeviceInfo crypto ((alistFind? m uid).getD []) uid tlfCryptKey
        ePrivKey idx keys rc).1) := by
  intro p hp q hq
  rcases mem_alistSet hp with hpm | hpnew
  · exact Or.inl ⟨p.2, by simp [hpm], hq⟩
  · obtain ⟨suf, hsuf, hall⟩ := fillInDeviceInfo_suffix crypto uid
      tlfCryptKey ePrivKey idx keys ((alistFind? m uid).getD []) rc
    subst hpnew
    simp only at hq
    rw [hsuf] at hq
    rcases List.mem_append.mp hq with hq0 | hqs
    · cases hfm : alistFind? m uid with
      | some b =>
        rw [hfm] at hq0
        exact Or.inl ⟨b, alistFind?_some_mem hfm, hq0⟩
      | none =>
        rw [hfm] at hq0
        simp at hq0
    · exact Or.inr (hall q hqs)

/-- `fillInDevicesAndServerMap` (any outcome) is a record extension of
the bundle map with the provisioning index. -/
theorem fillInDevicesAndServerMap_recordExtends (crypto : Crypto)
    (newIndex : Int) (ePubKey : TLFEphemeralPublicKey)
    (ePrivKey : TLFEphemeralPrivateKey) (tlfCryptKey : TLFCryptKey) :
    ∀ (cryptKeys : List (UID × List CryptPublicKey))
      (cryptBundles : TLFKeyMap) (newServerKeys : serverKeyMap) (rc : Nat),
    recordExtends newIndex cryptBundles
      (fillInDevicesAndServerMap crypto newIndex cryptKeys cryptBundles
        ePubKey ePrivKey tlfCryptKey newServerKeys rc).1 := by
  intro cryptKeys
  induction cryptKeys with
  | nil =>
    intro m nsk rc
    exact recordExtends_refl _ _
  | cons p rest ih =>
    intro m nsk rc
    obtain ⟨u, keys⟩ := p
    rcases hfid : fillInDeviceInfo crypto ((alistFind? m u).getD []) u
        tlfCryptKey ePrivKey newIndex keys rc with ⟨b', rc', res⟩
    have hstep := step_recordExtends crypto u tlfCryptKey ePrivKey newIndex
      m keys rc
    rw [hfid] at hstep
    simp only at hstep
    cases res with
    | error e =>
      rw [show (fillInDevicesAndServerMap crypto newIndex ((u, keys) :: rest)
            m ePubKey ePrivKey tlfCryptKey nsk rc).1 = alistSet m u b' by
        simp [fillInDevicesAndServerMap, hfid]]
      exact hstep
    | ok sm =>
      rw [show (fillInDevicesAndServerMap crypto newIndex ((u, keys) :: rest)
            m ePubKey ePrivKey tlfCryptKey nsk rc).1 =
          (fillInDevicesAndServerMap crypto newIndex rest (alistSet m u b')
            ePubKey ePrivKey tlfCryptKey
            (if sm.length > 0 then alistSet nsk u sm else nsk) rc').1 by
        simp [fillInDevicesAndServerMap, hfid]]
      exact recordExtends_trans hstep (ih (alistSet m u b') _ rc')

/-- `fillInDevicesAndServerMap` (any outcome) is an entry-level extension
of the bundle map with the provisioning index. -/
theorem fillInDevicesAndServerMap_entryExtends (crypto : Crypto)
    (newIndex : Int) (ePubKey : TLFEphemeralPublicKey)
    (ePrivKey : TLFEphemeralPrivateKey) (tlfCryptKey : TLFCryptKey) :
    ∀ (cryptKeys : List (UID × List CryptPublicKey))
      (cryptBundles : TLFKeyMap) (newServerKeys : serverKeyMap) (rc : Nat),
    entryExtends newIndex cryptBundles
      (fillInDevicesAndServerMap crypto newIndex cryptKeys cryptBundles
        ePubKey ePrivKey tlfCryptKey newServerKeys rc).1 := by
  intro cryptKeys
  induction cryptKeys with
  | nil =>
    intro m nsk rc
    exact entryExtends_refl _ _
  | cons p rest ih =>
    intro m nsk rc
    obtain ⟨u, keys⟩ := p
    rcases hfid : fillInDeviceInfo crypto ((alistFind? m u).getD []) u
        tlfCryptKey ePrivKey newIndex keys rc with ⟨b', rc', res⟩
    have hstep := step_entryExtends crypto u tlfCryptKey ePrivKey newIndex
      m keys rc
    rw [hfid] at hstep
    simp only at hstep
    cases res with
    | error e =>
      rw [show (fillInDevicesAndServerMap crypto newIndex ((u, keys) :: rest)
            m ePubKey ePrivKey tlfCryptKey nsk rc).1 = alistSet m u b' by
        simp [fillInDevicesAndServerMap, hfid]]
      exact hstep
    | ok sm =>
      rw [show (fillInDevicesAndServerMap crypto newIndex ((u, keys) :: rest)
            m ePubKey ePrivKey tlfCryptKey nsk rc).1 =
          (fillInDevicesAndServerMap crypto newIndex rest (alistSet m u b')
            ePubKey ePrivKey tlfCryptKey
            (if sm.length > 0 then alistSet nsk u sm else nsk) rc').1 by
        simp [fillInDevicesAndServerMap, hfid]]
      exact entryExtends_trans hstep (ih (alistSet m u b') _ rc')

/-- Structural facts about any `fillInDevices` call (successful or not):
the ephemeral key is appended (exactly once), the folder public key is
untouched, and both per-user maps are record/entry extensions with the
new index, which equals the pre-call length of the ephemeral list. -/
theorem fillInDevices_shape (tkb : TLFKeyBundle) (crypto : Crypto)
    (wKeys rKeys : List (UID × List CryptPublicKey))
    (ePubKey : TLFEphemeralPublicKey) (ePrivKey : TLFEphemeralPrivateKey)
    (tlfCryptKey : TLFCryptKey) (rc : Nat) :
    (tkb.fillInDevices crypto wKeys rKeys ePubKey ePrivKey tlfCryptKey
        rc).1.writer.TLFEphemeralPublicKeys =
      tkb.writer.TLFEphemeralPublicKeys ++ [ePubKey] ∧
    (tkb.fillInDevices crypto wKeys rKeys ePubKey ePrivKey tlfCryptKey
        rc).1.writer.TLFPublicKey = tkb.writer.TLFPublicKey ∧
    recordExtends (tkb.writer.TLFEphemeralPublicKeys.length : Int)
      tkb.writer.WKeys
      (tkb.fillInDevices crypto wKeys rKeys ePubKey ePrivKey tlfCryptKey
        rc).1.writer.WKeys ∧
    entryExtends (tkb.writer.TLFEphemeralPublicKeys.length : Int)
      tkb.writer.WKeys
      (tkb.fillInDevices crypto wKeys rKeys ePubKey ePrivKey tlfCryptKey
        rc).1.writer.WKeys ∧
    recordExtends (tkb.writer.TLFEphemeralPublicKeys.length : Int)
      tkb.reader.RKeys
      (tkb.fillInDevices crypto wKeys rKeys ePubKey ePrivKey tlfCryptKey
        rc).1.reader.RKeys ∧
    entryExtends (tkb.writer.TLFEphemeralPublicKeys.length : Int)
      tkb.reader.RKeys
      (tkb.fillInDevices crypto wKeys rKeys ePubKey ePrivKey tlfCryptKey
        rc).1.reader.RKeys := by
  have hidx : ((tkb.writer.TLFEphemeralPublicKeys ++ [ePubKey]).length :
      Int) - 1 = (tkb.writer.TLFEphemeralPublicKeys.length : Int) := by
    simp
  simp only [TLFKeyBundle.fillInDevices, hidx]
  rcases hw : fillInDevicesAndServerMap crypto
      (tkb.writer.TLFEphemeralPublicKeys.length : Int)
      wKeys tkb.writer.WKeys ePubKey ePrivKey tlfCryptKey [] rc with
    ⟨wk, nsk1, rc1, err1⟩
  have hwrec := fillInDevicesAndServerMap_recordExtends crypto
    (tkb.writer.TLFEphemeralPublicKeys.length : Int)
    ePubKey ePrivKey tlfCryptKey wKeys tkb.writer.WKeys [] rc
  have hwent := fillInDevicesAndServerMap_entryExtends crypto
    (tkb.writer.TLFEphemeralPublicKeys.length : Int)
    ePubKey ePrivKey tlfCryptKey wKeys tkb.writer.WKeys [] rc
  rw [hw] at hwrec hwent
  simp only at hwrec hwent
  cases err1 with
  | some e =>
    simp [hw]
    exact ⟨hwrec, hwent, recordExtends_refl _ _, entryExtends_refl _ _⟩
  | none =>
    rcases hr : fillInDevicesAndServerMap crypto
        (tkb.writer.TLFEphemeralPublicKeys.length : Int)
        rKeys tkb.reader.RKeys ePubKey ePrivKey tlfCryptKey nsk1 rc1 with
      ⟨rk, nsk2, rc2, err2⟩
    have hrrec := fillInDevicesAndServerMap_recordExtends crypto
      (tkb.writer.TLFEphemeralPublicKeys.length : Int)
      ePubKey ePrivKey tlfCryptKey rKeys tkb.reader.RKeys nsk1 rc1
    have hrent := fillInDevicesAndServerMap_entryExtends crypto
      (tkb.writer.TLFEphemeralPublicKeys.length : Int)
      ePubKey ePrivKey tlfCryptKey rKeys tkb.reader.RKeys nsk1 rc1
    rw [hr] at hrrec hrent
    simp only at hrrec hrent
    cases err2 with
    | some e =>
      simp [hw, hr]
      exact ⟨hwrec, hwent, hrrec, hrent⟩
    | none =>
      simp [hw, hr]
      exact ⟨hwrec, hwent, hrrec, hrent⟩

/-! ### The ephemeral-index validity invariant -/

/-- All record entries of `m` carry an index that is valid for an
ephemeral key list of length `n`. -/
def TLFKeyMap.indicesValidIn (m : TLFKeyMap) (n : Nat) : Prop :=
  ∀ p ∈ m, ∀ q ∈ p.2,
    0 ≤ q.2.EPubKeyIndex ∧ q.2.EPubKeyIndex < (n : Int)

/-- The §3 invariant: every stored `EPubKeyIndex` (writer or reader side)
is a valid index into the writer bundle's `TLFEphemeralPublicKeys`. -/
def TLFKeyBundle.ePubIndexValid (tkb : TLFKeyBundle) : Prop :=
  TLFKeyMap.indicesValidIn tkb.writer.WKeys
    tkb.writer.TLFEphemeralPublicKeys.length ∧
  TLFKeyMap.indicesValidIn tkb.reader.RKeys
    tkb.writer.TLFEphemeralPublicKeys.length

theorem indicesValidIn_of_entryExtends {m m' : TLFKeyMap} {n : Nat}
    (hext : entryExtends (n : Int) m m')
    (hv : TLFKeyMap.indicesValidIn m n) :
    TLFKeyMap.indicesValidIn m' (n + 1) := by
  intro p hp q hq
  rcases hext p hp q hq with ⟨b, hb, hqb⟩ | hidx
  · have hv' := hv (p.1, b) hb q hqb
    refine ⟨hv'.1, lt_trans hv'.2 ?_⟩
    exact_mod_cast Nat.lt_succ_self n
  · rw [hidx]
    constructor
    · exact_mod_cast Nat.zero_le n
    · exact_mod_cast Nat.lt_succ_self n

/-- C1: ephemeral-index validity is preserved by provisioning: if every
stored `EPubKeyIndex` of every per-device record (writer or reader side)
is a valid index into the writer bundle's `TLFEphemeralPublicKeys`, then
after a successful `fillInDevices` call the same holds, and every record
inserted by the call has `EPubKeyIndex` equal to the index of the
just-appended ephemeral public key (the new length minus one). -/
theorem fillInDevices_preserves_ePubIndexValid
    (tkb : TLFKeyBundle) (crypto : Crypto)
    (wKeys rKeys : List (UID × List CryptPublicKey))
    (ePubKey : TLFEphemeralPublicKey) (ePrivKey : TLFEphemeralPrivateKey)
    (tlfCryptKey : TLFCryptKey) (rc : Nat)
    (tkb' : TLFKeyBundle) (rc' : Nat) (nsk : serverKeyMap)
    (hinv : tkb.ePubIndexValid)
    (hcall : tkb.fillInDevices crypto wKeys rKeys ePubKey ePrivKey
      tlfCryptKey rc = (tkb', rc', .ok nsk)) :
    tkb'.ePubIndexValid ∧
    (∀ u kid info,
      TLFKeyMap.record? tkb'.writer.WKeys u kid = some info →
      TLFKeyMap.record? tkb.writer.WKeys u kid = none →
      info.EPubKeyIndex =
        (tkb'.writer.TLFEphemeralPublicKeys.length : Int) - 1) ∧
    (∀ u kid info,
      TLFKeyMap.record? tkb'.reader.RKeys u kid = some info →
      TLFKeyMap.record? tkb.reader.RKeys u kid = none →
      info.EPubKeyIndex =
        (tkb'.writer.TLFEphemeralPublicKeys.length : Int) - 1) := by
  have hshape := fillInDevices_shape tkb crypto wKeys rKeys ePubKey
    ePrivKey tlfCryptKey rc
  rw [hcall] at hshape
  simp only at hshape
  obtain ⟨heph, _, hwrec, hwent, hrrec, hrent⟩ := hshape
  have hlen : tkb'.writer.TLFEphemeralPublicKeys.length =
      tkb.writer.TLFEphemeralPublicKeys.length + 1 := by
    rw [heph]; simp
  have hidx2 : (tkb'.writer.TLFEphemeralPublicKeys.length : Int) - 1 =
      (tkb.writer.TLFEphemeralPublicKeys.length : Int) := by
    rw [hlen]; push_cast; ring
  refine ⟨⟨?_, ?_⟩, ?_, ?_⟩
  · rw [TLFKeyBundle.ePubIndexValid] at hinv
    rw [hlen]
    exact indicesValidIn_of_entryExtends hwent hinv.1
  · rw [TLFKeyBundle.ePubIndexValid] at hinv
    rw [hlen]
    exact indicesValidIn_of_entryExtends hrent hinv.2
  · intro u kid info hsome hnone
    rcases hwrec u kid with h | ⟨_, info2, hsome2, hidx3⟩
    · rw [hsome, hnone] at h
      exact absurd h (by simp)
    · have : info2 = info := by
        have := hsome2.symm.trans hsome
        simpa using this
      rw [hidx2, ← this]
      exact hidx3
  · intro u kid info hsome hnone
    rcases hrrec u kid with h | ⟨_, info2, hsome2, hidx3⟩
    · rw [hsome, hnone] at h
      exact absurd h (by simp)
    · have : info2 = info := by
        have := hsome2.symm.trans hsome
        simpa using this
      rw [hidx2, ← this]
      exact hidx3

/-! ### Decidability instances for concrete evaluation -/

instance {ε α : Type} [DecidableEq ε] [DecidableEq α] :
    DecidableEq (Except ε α)
  | .error e, .error e' =>
    if h : e = e' then .isTrue (by rw [h]) else .isFalse (by simp [h])
  | .error _, .ok _ => .isFalse (by simp)
  | .ok _, .error _ => .isFalse (by simp)
  | .ok a, .ok a' =>
    if h : a = a' then .isTrue (by rw [h]) else .isFalse (by simp [h])

instance (m : TLFKeyMap) (n : Nat) :
    Decidable (TLFKeyMap.indicesValidIn m n) := by
  unfold TLFKeyMap.indicesValidIn
  infer_instance

instance (tkb : TLFKeyBundle) : Decidable tkb.ePubIndexValid := by
  unfold TLFKeyBundle.ePubIndexValid
  infer_instance

/-! ### Concrete fixtures used by witnesses and counterexamples -/

/-- A concrete always-succeeding crypto collaborator. -/
def cryptoFx : Crypto where
  makeRandomTLFCryptKeyServerHalf := fun rc => .ok ⟨100 + rc⟩
  maskTLFCryptKey := fun sh k => .ok ⟨sh.val + k.val⟩
  encryptTLFCryptKeyClientHalf := fun ep k ch =>
    .ok ⟨ep.val * 1000 + k.KID * 100 + ch.val⟩
  getTLFCryptKeyServerHalfID := fun u kid sh =>
    .ok ⟨⟨u * 10000 + kid * 100 + sh.val⟩⟩

/-- An empty key bundle. -/
def emptyTkbFx : TLFKeyBundle :=
  ⟨⟨[], ⟨7⟩, []⟩, ⟨[]⟩⟩

/-- Result bundle of provisioning writer user 0 / device 1 from
`emptyTkbFx` with `cryptoFx`. -/
def tkbDoneFx : TLFKeyBundle :=
  ⟨⟨[(0, [(1, ⟨⟨60205⟩, ⟨⟨200⟩⟩, 0⟩)])], ⟨7⟩, [⟨50⟩]⟩, ⟨[]⟩⟩

/-- Server-key map returned by that provisioning call. -/
def nskDoneFx : serverKeyMap := [(0, [(1, ⟨100⟩)])]

/-- Witness for C1 at a concrete input. -/
theorem fillInDevices_preserves_ePubIndexValid_witness :
    emptyTkbFx.ePubIndexValid ∧
    emptyTkbFx.fillInDevices cryptoFx [(0, [⟨1⟩])] [] ⟨50⟩ ⟨60⟩ ⟨5⟩ 0 =
      (tkbDoneFx, 1, .ok nskDoneFx) ∧
    (tkbDoneFx.ePubIndexValid ∧
      (∀ u kid info,
        TLFKeyMap.record? tkbDoneFx.writer.WKeys u kid = some info →
        TLFKeyMap.record? emptyTkbFx.writer.WKeys u kid = none →
        info.EPubKeyIndex =
          (tkbDoneFx.writer.TLFEphemeralPublicKeys.length : Int) - 1) ∧
      (∀ u kid info,
        TLFKeyMap.record? tkbDoneFx.reader.RKeys u kid = some info →
        TLFKeyMap.record? emptyTkbFx.reader.RKeys u kid = none →
        info.EPubKeyIndex =
          (tkbDoneFx.writer.TLFEphemeralPublicKeys.length : Int) - 1)) :=
  ⟨by decide, by rfl,
    fillInDevices_preserves_ePubIndexValid emptyTkbFx cryptoFx
      [(0, [⟨1⟩])] [] ⟨50⟩ ⟨60⟩ ⟨5⟩ 0 tkbDoneFx 1 nskDoneFx
      (by decide) (by rfl)⟩

/-- Bundle for the C2 counterexample: user 0 has an (empty) writer
per-user bundle, and a reader record for device 1. -/
def tkbC2Fx : TLFKeyBundle :=
  ⟨⟨[(0, [])], ⟨7⟩, [⟨50⟩]⟩, ⟨[(0, [(1, ⟨⟨9⟩, ⟨⟨3⟩⟩, 0⟩)])]⟩⟩

/-- C2 counterexample: a reader record for (user 0, device 1) exists but
`GetTLFCryptKeyInfo` returns found = false, because user 0 also has a
writer per-user bundle (without that device) and the reader map is only
consulted when the user is absent from the writer map.  This refutes
"returns found=true ... whenever a record for that device exists in
either bundle". -/
theorem getTLFCryptKeyInfo_reader_shadowed :
    TLFKeyMap.record? tkbC2Fx.reader.RKeys 0 1 ≠ none ∧
    (tkbC2Fx.getTLFCryptKeyInfo 0 ⟨1⟩).2 = false := by
  decide

/-- C2 (amended): `GetTLFCryptKeyInfo` checks the writer per-user map
first; when the user has a writer per-user bundle the answer is decided
by that bundle alone (found = false when the device is absent from it,
even if a reader record exists); the reader per-user map is consulted,
in the same way, only when the user is absent from the writer map; a
user present in neither yields found = false with no error. -/
theorem getTLFCryptKeyInfo_characterization (tkb : TLFKeyBundle)
    (user : UID) (k : CryptPublicKey) :
    (∀ b, alistFind? tkb.writer.WKeys user = some b →
      ((∀ info, alistFind? b k.KID = some info →
          tkb.getTLFCryptKeyInfo user k = (info, true)) ∧
        (alistFind? b k.KID = none →
          tkb.getTLFCryptKeyInfo user k = (TLFCryptKeyInfo.zero, false)))) ∧
    (alistFind? tkb.writer.WKeys user = none →
      (∀ b, alistFind? tkb.reader.RKeys user = some b →
        ((∀ info, alistFind? b k.KID = some info →
            tkb.getTLFCryptKeyInfo user k = (info, true)) ∧
          (alistFind? b k.KID = none →
            tkb.getTLFCryptKeyInfo user k =
              (TLFCryptKeyInfo.zero, false)))) ∧
      (alistFind? tkb.reader.RKeys user = none →
        tkb.getTLFCryptKeyInfo user k = (TLFCryptKeyInfo.zero, false))) := by
  unfold TLFKeyBundle.getTLFCryptKeyInfo
  constructor
  · intro b hb
    constructor
    · intro info hinfo
      simp [hb, hinfo]
    · intro hnone
      simp [hb, hnone]
  · intro hw
    constructor
    · intro b hb
      constructor
      · intro info hinfo
        simp [hw, hb, hinfo]
      · intro hnone
        simp [hw, hb, hnone]
    · intro hr
      simp [hw, hr]

/-- Witness for the amended C2 at the counterexample input. -/
theorem getTLFCryptKeyInfo_characterization_witness :
    tkbC2Fx.getTLFCryptKeyInfo 0 ⟨1⟩ = (TLFCryptKeyInfo.zero, false) :=
  ((getTLFCryptKeyInfo_characterization tkbC2Fx 0 ⟨1⟩).1 [] (by rfl)).2
    (by rfl)

/-- C8: `GetTLFEphemeralPublicKey` fails with
`TLFEphemeralPublicKeyNotFoundError` carrying the user and device key if
and only if `GetTLFCryptKeyInfo` finds no record; when a record is found
it returns the element of the writer bundle's `TLFEphemeralPublicKeys`
at the record's stored `EPubKeyIndex`. -/
theorem getTLFEphemeralPublicKey_spec (tkb : TLFKeyBundle) (user : UID)
    (k : CryptPublicKey) :
    (tkb.getTLFEphemeralPublicKey user k =
        .error (.tlfEphemeralPublicKeyNotFound user k.KID) ↔
      (tkb.getTLFCryptKeyInfo user k).2 = false) ∧
    (∀ info, tkb.getTLFCryptKeyInfo user k = (info, true) →
      ∀ v, goIndex tkb.writer.TLFEphemeralPublicKeys info.EPubKeyIndex =
          some v →
        tkb.getTLFEphemeralPublicKey user k = .ok v) := by
  constructor
  · rcases hres : tkb.getTLFCryptKeyInfo user k with ⟨info, found⟩
    cases found with
    | false =>
      simp only [TLFKeyBundle.getTLFEphemeralPublicKey, hres]
      simp
    | true =>
      simp only [TLFKeyBundle.getTLFEphemeralPublicKey, hres]
      cases hidx : goIndex tkb.writer.TLFEphemeralPublicKeys
          info.EPubKeyIndex with
      | some v => simp [hidx]
      | none => simp [hidx]
  · intro info hres v hidx
    simp only [TLFKeyBundle.getTLFEphemeralPublicKey, hres]
    simp [hidx]

/-- Witness for C8 at a concrete input. -/
theorem getTLFEphemeralPublicKey_spec_witness :
    tkbDoneFx.getTLFEphemeralPublicKey 0 ⟨1⟩ = .ok ⟨50⟩ :=
  (getTLFEphemeralPublicKey_spec tkbDoneFx 0 ⟨1⟩).2 ⟨⟨60205⟩, ⟨⟨200⟩⟩, 0⟩
    (by rfl) ⟨50⟩ (by rfl)

/-- A record found by `GetTLFCryptKeyInfo` is stored in the writer map or
in the reader map. -/
theorem getTLFCryptKeyInfo_found_mem (tkb : TLFKeyBundle) (user : UID)
    (k : CryptPublicKey) (info : TLFCryptKeyInfo)
    (h : tkb.getTLFCryptKeyInfo user k = (info, true)) :
    (∃ b, (user, b) ∈ tkb.writer.WKeys ∧ (k.KID, info) ∈ b) ∨
    (∃ b, (user, b) ∈ tkb.reader.RKeys ∧ (k.KID, info) ∈ b) := by
  unfold TLFKeyBundle.getTLFCryptKeyInfo at h
  cases hw : alistFind? tkb.writer.WKeys user with
  | some b =>
    rw [hw] at h
    simp only at h
    cases hb : alistFind? b k.KID with
    | some i =>
      rw [hb] at h
      simp only [Prod.mk.injEq] at h
      exact Or.inl ⟨b, alistFind?_some_mem hw, h.1 ▸ alistFind?_some_mem hb⟩
    | none =>
      rw [hb] at h
      exact absurd h (by simp)
  | none =>
    rw [hw] at h
    simp only at h
    cases hr : alistFind? tkb.reader.RKeys user with
    | some b =>
      rw [hr] at h
      simp only at h
      cases hb : alistFind? b k.KID with
      | some i =>
        rw [hb] at h
        simp only [Prod.mk.injEq] at h
        exact Or.inr ⟨b, alistFind?_some_mem hr, h.1 ▸ alistFind?_some_mem hb⟩
      | none =>
        rw [hb] at h
        exact absurd h (by simp)
    | none =>
      rw [hr] at h
      exact absurd h (by simp)

theorem goIndex_valid {α : Type} (l : List α) (i : Int) (h0 : 0 ≤ i)
    (hl : i < (l.length : Int)) : ∃ v, goIndex l i = some v := by
  unfold goIndex
  rw [if_neg (not_lt.mpr h0)]
  cases hg : l.get? i.toNat with
  | some v => exact ⟨v, rfl⟩
  | none =>
    rw [List.get?_eq_none] at hg
    exact absurd hg (by omega)

/-- C9: under the §3 invariant, the indexing performed by
`GetTLFEphemeralPublicKey` is always in range, so the out-of-range
failure is unreachable for every user and device input. -/
theorem getTLFEphemeralPublicKey_no_indexOutOfRange (tkb : TLFKeyBundle)
    (hinv : tkb.ePubIndexValid) (user : UID) (k : CryptPublicKey) :
    tkb.getTLFEphemeralPublicKey user k ≠ .error .indexOutOfRange := by
  rcases hres : tkb.getTLFCryptKeyInfo user k with ⟨info, found⟩
  cases found with
  | false =>
    simp only [TLFKeyBundle.getTLFEphemeralPublicKey, hres]
    simp
  | true =>
    have hvalid : 0 ≤ info.EPubKeyIndex ∧ info.EPubKeyIndex <
        (tkb.writer.TLFEphemeralPublicKeys.length : Int) := by
      rcases getTLFCryptKeyInfo_found_mem tkb user k info hres with
        ⟨b, hb, hkb⟩ | ⟨b, hb, hkb⟩
      · exact hinv.1 (user, b) hb (k.KID, info) hkb
      · exact hinv.2 (user, b) hb (k.KID, info) hkb
    obtain ⟨v, hv⟩ := goIndex_valid tkb.writer.TLFEphemeralPublicKeys
      info.EPubKeyIndex hvalid.1 hvalid.2
    simp only [TLFKeyBundle.getTLFEphemeralPublicKey, hres]
    simp [hv]

/-- Witness for C9 at a concrete input. -/
theorem getTLFEphemeralPublicKey_no_indexOutOfRange_witness :
    tkbDoneFx.ePubIndexValid ∧
    tkbDoneFx.getTLFEphemeralPublicKey 0 ⟨1⟩ ≠ .error .indexOutOfRange :=
  ⟨by decide,
    getTLFEphemeralPublicKey_no_indexOutOfRange tkbDoneFx (by decide) 0 ⟨1⟩⟩

/-- A concrete per-device record used in fixtures. -/
def infoFx : TLFCryptKeyInfo := ⟨⟨60205⟩, ⟨⟨200⟩⟩, 0⟩

/-- C6: `GetKeyGeneration` equals the length of the generation history;
an empty history answers false to `IsWriter`/`IsReader` for every input;
a non-empty history delegates exactly to the bundle at index
`GetKeyGeneration() - 1` (the most recently appended bundle). -/
theorem keyGenerations_spec (wg : TLFWriterKeyGenerations)
    (rg : TLFReaderKeyGenerations) (user : UID) (deviceKID : KID) :
    wg.getKeyGeneration = wg.length ∧
    rg.getKeyGeneration = rg.length ∧
    TLFWriterKeyGenerations.isWriter [] user deviceKID = false ∧
    TLFReaderKeyGenerations.isReader [] user deviceKID = false ∧
    (wg ≠ [] → ∃ b, wg.get? (wg.getKeyGeneration - 1) = some b ∧
      wg.isWriter user deviceKID = b.isWriter user deviceKID) ∧
    (rg ≠ [] → ∃ b, rg.get? (rg.getKeyGeneration - 1) = some b ∧
      rg.isReader user deviceKID = b.isReader user deviceKID) := by
  refine ⟨rfl, rfl, rfl, rfl, ?_, ?_⟩
  · intro hne
    have hlen : 0 < wg.length := List.length_pos.mpr hne
    cases hg : wg.get? (wg.length - 1) with
    | none =>
      rw [List.get?_eq_none] at hg
      omega
    | some b =>
      refine ⟨b, hg, ?_⟩
      simp only [TLFWriterKeyGenerations.isWriter,
        TLFWriterKeyGenerations.getKeyGeneration]
      rw [if_neg (by omega), hg]
  · intro hne
    have hlen : 0 < rg.length := List.length_pos.mpr hne
    cases hg : rg.get? (rg.length - 1) with
    | none =>
      rw [List.get?_eq_none] at hg
      omega
    | some b =>
      refine ⟨b, hg, ?_⟩
      simp only [TLFReaderKeyGenerations.isReader,
        TLFReaderKeyGenerations.getKeyGeneration]
      rw [if_neg (by omega), hg]

/-- Singleton writer generation history fixture. -/
def wgFx : TLFWriterKeyGenerations := [⟨[(0, [(1, infoFx)])], ⟨7⟩, [⟨50⟩]⟩]

/-- Singleton reader generation history fixture. -/
def rgFx : TLFReaderKeyGenerations := [⟨[(2, [(3, infoFx)])]⟩]

/-- Witness for C6 at concrete singleton histories. -/
theorem keyGenerations_spec_witness :
    (∃ b, wgFx.get? (wgFx.getKeyGeneration - 1) = some b ∧
      wgFx.isWriter 0 1 = b.isWriter 0 1) ∧
    (∃ b, rgFx.get? (rgFx.getKeyGeneration - 1) = some b ∧
      rgFx.isReader 2 3 = b.isReader 2 3) :=
  ⟨(keyGenerations_spec wgFx rgFx 0 1).2.2.2.2.1 (by decide),
    (keyGenerations_spec wgFx rgFx 2 3).2.2.2.2.2 (by decide)⟩

/-- C7: provisioning is idempotent per device: a device that already has
a record in the per-user bundle when `fillInDeviceInfo` is called is
skipped (the record is never regenerated or overwritten) and the
returned server-half map contains no entry for it; hence a later call
listing the same device produces no new record and an empty contribution
for that device. -/
theorem fillInDeviceInfo_idempotent (crypto : Crypto) (uid : UID)
    (tlfCryptKey : TLFCryptKey) (ePrivKey : TLFEphemeralPrivateKey)
    (ePubIndex : Int) (publicKeys : List CryptPublicKey)
    (uckb : UserCryptKeyBundle) (rc : Nat) (kid : KID)
    (info : TLFCryptKeyInfo) (hpresent : alistFind? uckb kid = some info) :
    alistFind? (fillInDeviceInfo crypto uckb uid tlfCryptKey ePrivKey
      ePubIndex publicKeys rc).1 kid = some info ∧
    (∀ sm, (fillInDeviceInfo crypto uckb uid tlfCryptKey ePrivKey
        ePubIndex publicKeys rc).2.2 = .ok sm →
      alistFind? sm kid = none) := by
  constructor
  · exact fillInDeviceInfo_mono crypto uid tlfCryptKey ePrivKey ePubIndex
      publicKeys uckb rc kid info hpresent
  · intro sm hok
    rcases hfull : fillInDeviceInfo crypto uckb uid tlfCryptKey ePrivKey
        ePubIndex publicKeys rc with ⟨uckb', rc', res⟩
    rw [hfull] at hok
    simp only at hok
    subst hok
    have hiff := fillInDeviceInfo_ok_serverMap crypto uid tlfCryptKey
      ePrivKey ePubIndex publicKeys uckb rc uckb' rc' sm hfull kid
    cases hsm : alistFind? sm kid with
    | none => rfl
    | some sh =>
      have := (hiff.mp ⟨sh, hsm⟩).1
      rw [hpresent] at this
      exact absurd this (by simp)

/-- Per-user bundle fixture that already contains device 1. -/
def uckbFx : UserCryptKeyBundle := [(1, infoFx)]

/-- Witness for C7 at a concrete input. -/
theorem fillInDeviceInfo_idempotent_witness :
    alistFind? uckbFx 1 = some infoFx ∧
    (alistFind? (fillInDeviceInfo cryptoFx uckbFx 0 ⟨5⟩ ⟨60⟩ 0
        [⟨1⟩] 0).1 1 = some infoFx ∧
      (∀ sm, (fillInDeviceInfo cryptoFx uckbFx 0 ⟨5⟩ ⟨60⟩ 0
          [⟨1⟩] 0).2.2 = .ok sm →
        alistFind? sm 1 = none)) :=
  ⟨by rfl,
    fillInDeviceInfo_idempotent cryptoFx 0 ⟨5⟩ ⟨60⟩ 0 [⟨1⟩] uckbFx 0 1
      infoFx (by rfl)⟩

/-- C4: a failing crypto step makes `fillInDeviceInfo` return that error
immediately: the device list decomposes into a successfully processed
prefix, then a fresh device whose crypto step fails, and the returned
bundle is exactly the state after the prefix (later devices untouched,
earlier records kept).  At the `fillInDevices` level the appended
ephemeral public key and all previously present records are likewise not
rolled back on failure. -/
theorem provisioning_failure_no_rollback
    (crypto : Crypto) (uid : UID) (tlfCryptKey : TLFCryptKey)
    (ePrivKey : TLFEphemeralPrivateKey) (ePubIndex : Int)
    (publicKeys : List CryptPublicKey) (uckb : UserCryptKeyBundle)
    (rc : Nat) (uckb' : UserCryptKeyBundle) (rc' : Nat) (e : GoError)
    (hfail : fillInDeviceInfo crypto uckb uid tlfCryptKey ePrivKey
      ePubIndex publicKeys rc = (uckb', rc', .error e))
    (tkb : TLFKeyBundle) (wKeys rKeys : List (UID × List CryptPublicKey))
    (ePubKey : TLFEphemeralPublicKey) (tkb' : TLFKeyBundle) (rc2 : Nat)
    (e2 : GoError) (rcb : Nat)
    (hfail2 : tkb.fillInDevices crypto wKeys rKeys ePubKey ePrivKey
      tlfCryptKey rcb = (tkb', rc2, .error e2)) :
    (∃ pre k post sm0, publicKeys = pre ++ k :: post ∧
      fillInDeviceInfo crypto uckb uid tlfCryptKey ePrivKey ePubIndex
        pre rc = (uckb', rc', .ok sm0) ∧
      alistFind? uckb' k.KID = none ∧
      processDevice crypto uid tlfCryptKey ePrivKey ePubIndex k rc' =
        .error e) ∧
    (∀ kid info, alistFind? uckb kid = some info →
      alistFind? uckb' kid = some info) ∧
    tkb'.writer.TLFEphemeralPublicKeys =
      tkb.writer.TLFEphemeralPublicKeys ++ [ePubKey] ∧
    (∀ u kid info, TLFKeyMap.record? tkb.writer.WKeys u kid = some info →
      TLFKeyMap.record? tkb'.writer.WKeys u kid = some info) ∧
    (∀ u kid info, TLFKeyMap.record? tkb.reader.RKeys u kid = some info →
      TLFKeyMap.record? tkb'.reader.RKeys u kid = some info) := by
  have hshape := fillInDevices_shape tkb crypto wKeys rKeys ePubKey
    ePrivKey tlfCryptKey rcb
  rw [hfail2] at hshape
  simp only at hshape
  obtain ⟨heph, _, hwrec, _, hrrec, _⟩ := hshape
  refine ⟨fillInDeviceInfo_error_decomp crypto uid tlfCryptKey ePrivKey
    ePubIndex publicKeys uckb rc uckb' rc' e hfail, ?_, heph, ?_, ?_⟩
  · intro kid info hsome
    have := fillInDeviceInfo_mono crypto uid tlfCryptKey ePrivKey
      ePubIndex publicKeys uckb rc kid info hsome
    rw [hfail] at this
    exact this
  · intro u kid info hsome
    exact recordExtends_mono hwrec u kid info hsome
  · intro u kid info hsome
    exact recordExtends_mono hrrec u kid info hsome

/-- Crypto fixture whose second random-generation call fails. -/
def fail2CryptoFx : Crypto :=
  { cryptoFx with makeRandomTLFCryptKeyServerHalf := fun rc =>
      if rc = 1 then .error ⟨88⟩ else .ok ⟨100 + rc⟩ }

/-- Bundle state after the partially failed provisioning call. -/
def tkbFailFx : TLFKeyBundle := ⟨⟨[(0, [(1, infoFx)])], ⟨7⟩, [⟨50⟩]⟩, ⟨[]⟩⟩

/-- Witness for C4 at a concrete failing input: device 1 is provisioned,
the random generation for device 2 fails, device 3 is never reached. -/
theorem provisioning_failure_no_rollback_witness :
    fillInDeviceInfo fail2CryptoFx [] 0 ⟨5⟩ ⟨60⟩ 0 [⟨1⟩, ⟨2⟩, ⟨3⟩] 0 =
      ([(1, infoFx)], 1, .error ⟨88⟩) ∧
    emptyTkbFx.fillInDevices fail2CryptoFx [(0, [⟨1⟩, ⟨2⟩])] [] ⟨50⟩ ⟨60⟩
      ⟨5⟩ 0 = (tkbFailFx, 1, .error ⟨88⟩) ∧
    ((∃ pre k post sm0, [(⟨1⟩ : CryptPublicKey), ⟨2⟩, ⟨3⟩] =
        pre ++ k :: post ∧
      fillInDeviceInfo fail2CryptoFx [] 0 ⟨5⟩ ⟨60⟩ 0 pre 0 =
        ([(1, infoFx)], 1, .ok sm0) ∧
      alistFind? [(1, infoFx)] k.KID = none ∧
      processDevice fail2CryptoFx 0 ⟨5⟩ ⟨60⟩ 0 k 1 = .error ⟨88⟩) ∧
    (∀ kid info, alistFind? ([] : UserCryptKeyBundle) kid = some info →
      alistFind? [(1, infoFx)] kid = some info) ∧
    tkbFailFx.writer.TLFEphemeralPublicKeys =
      emptyTkbFx.writer.TLFEphemeralPublicKeys ++ [⟨50⟩] ∧
    (∀ u kid info,
      TLFKeyMap.record? emptyTkbFx.writer.WKeys u kid = some info →
      TLFKeyMap.record? tkbFailFx.writer.WKeys u kid = some info) ∧
    (∀ u kid info,
      TLFKeyMap.record? emptyTkbFx.reader.RKeys u kid = some info →
      TLFKeyMap.record? tkbFailFx.reader.RKeys u kid = some info)) :=
  ⟨by rfl, by rfl,
    provisioning_failure_no_rollback fail2CryptoFx 0 ⟨5⟩ ⟨60⟩ 0
      [⟨1⟩, ⟨2⟩, ⟨3⟩] [] 0 [(1, infoFx)] 1 ⟨88⟩ (by rfl)
      emptyTkbFx [(0, [⟨1⟩, ⟨2⟩])] [] ⟨50⟩ tkbFailFx 1 ⟨88⟩ 0 (by rfl)⟩

/-- C5: when `fillInDeviceInfo` fails partway through its device list,
the Go return is `(nil, err)` (modelled by `Except.error`): no
server-half association reaches the caller, even though the devices
provisioned before the failure (those whose keys appear in the would-be
map of the successful prefix) keep their records, with their
`ServerHalfID`s, in the bundle. -/
theorem fillInDeviceInfo_failure_unreported_halves
    (crypto : Crypto) (uid : UID) (tlfCryptKey : TLFCryptKey)
    (ePrivKey : TLFEphemeralPrivateKey) (ePubIndex : Int)
    (publicKeys : List CryptPublicKey) (uckb : UserCryptKeyBundle)
    (rc : Nat) (uckb' : UserCryptKeyBundle) (rc' : Nat) (e : GoError)
    (hfail : fillInDeviceInfo crypto uckb uid tlfCryptKey ePrivKey
      ePubIndex publicKeys rc = (uckb', rc', .error e)) :
    (∀ sm : deviceServerMap,
      (fillInDeviceInfo crypto uckb uid tlfCryptKey ePrivKey ePubIndex
        publicKeys rc).2.2 ≠ .ok sm) ∧
    ∃ pre k post sm0, publicKeys = pre ++ k :: post ∧
      fillInDeviceInfo crypto uckb uid tlfCryptKey ePrivKey ePubIndex
        pre rc = (uckb', rc', .ok sm0) ∧
      (∀ kid, (∃ sh, alistFind? sm0 kid = some sh) →
        alistFind? uckb kid = none ∧
          ∃ info, alistFind? uckb' kid = some info) := by
  constructor
  · intro sm
    rw [hfail]
    simp
  · obtain ⟨pre, k, post, sm0, hsplit, hpre, hnone, hproc⟩ :=
      fillInDeviceInfo_error_decomp crypto uid tlfCryptKey ePrivKey
        ePubIndex publicKeys uckb rc uckb' rc' e hfail
    refine ⟨pre, k, post, sm0, hsplit, hpre, ?_⟩
    intro kid hkid
    exact (fillInDeviceInfo_ok_serverMap crypto uid tlfCryptKey ePrivKey
      ePubIndex pre uckb rc uckb' rc' sm0 hpre kid).mp hkid

/-- Witness for C5 at the concrete failing input of the C4 witness. -/
theorem fillInDeviceInfo_failure_unreported_halves_witness :
    fillInDeviceInfo fail2CryptoFx [] 0 ⟨5⟩ ⟨60⟩ 0 [⟨1⟩, ⟨2⟩, ⟨3⟩] 0 =
      ([(1, infoFx)], 1, .error ⟨88⟩) ∧
    ((∀ sm : deviceServerMap,
      (fillInDeviceInfo fail2CryptoFx [] 0 ⟨5⟩ ⟨60⟩ 0
        [⟨1⟩, ⟨2⟩, ⟨3⟩] 0).2.2 ≠ .ok sm) ∧
    ∃ pre k post sm0, [(⟨1⟩ : CryptPublicKey), ⟨2⟩, ⟨3⟩] =
        pre ++ k :: post ∧
      fillInDeviceInfo fail2CryptoFx [] 0 ⟨5⟩ ⟨60⟩ 0 pre 0 =
        ([(1, infoFx)], 1, .ok sm0) ∧
      (∀ kid, (∃ sh, alistFind? sm0 kid = some sh) →
        alistFind? ([] : UserCryptKeyBundle) kid = none ∧
          ∃ info, alistFind? [(1, infoFx)] kid = some info)) :=
  ⟨by rfl,
    fillInDeviceInfo_failure_unreported_halves fail2CryptoFx 0 ⟨5⟩ ⟨60⟩ 0
      [⟨1⟩, ⟨2⟩, ⟨3⟩] [] 0 [(1, infoFx)] 1 ⟨88⟩ (by rfl)⟩

/-! ### Unfolding and per-user lemmas for `fillInDevicesAndServerMap` -/

theorem fdsm_nil (crypto : Crypto) (newIndex : Int) (m : TLFKeyMap)
    (ePubKey : TLFEphemeralPublicKey) (ePrivKey : TLFEphemeralPrivateKey)
    (tlfCryptKey : TLFCryptKey) (nsk : serverKeyMap) (rc : Nat) :
    fillInDevicesAndServerMap crypto newIndex [] m ePubKey ePrivKey
      tlfCryptKey nsk rc = (m, nsk, rc, none) := rfl

theorem fdsm_cons_error (crypto : Crypto) (newIndex : Int) (u0 : UID)
    (keys0 : List CryptPublicKey) (rest : List (UID × List CryptPublicKey))
    (m : TLFKeyMap) (ePubKey : TLFEphemeralPublicKey)
    (ePrivKey : TLFEphemeralPrivateKey) (tlfCryptKey : TLFCryptKey)
    (nsk : serverKeyMap) (rc : Nat) (b0 : UserCryptKeyBundle) (rc0 : Nat)
    (e : GoError)
    (hfid : fillInDeviceInfo crypto ((alistFind? m u0).getD []) u0
      tlfCryptKey ePrivKey newIndex keys0 rc = (b0, rc0, .error e)) :
    fillInDevicesAndServerMap crypto newIndex ((u0, keys0) :: rest) m
      ePubKey ePrivKey tlfCryptKey nsk rc =
      (alistSet m u0 b0, nsk, rc0, some e) := by
  simp [fillInDevicesAndServerMap, hfid]

theorem fdsm_cons_ok (crypto : Crypto) (newIndex : Int) (u0 : UID)
    (keys0 : List CryptPublicKey) (rest : List (UID × List CryptPublicKey))
    (m : TLFKeyMap) (ePubKey : TLFEphemeralPublicKey)
    (ePrivKey : TLFEphemeralPrivateKey) (tlfCryptKey : TLFCryptKey)
    (nsk : serverKeyMap) (rc : Nat) (b0 : UserCryptKeyBundle) (rc0 : Nat)
    (sm0 : deviceServerMap)
    (hfid : fillInDeviceInfo crypto ((alistFind? m u0).getD []) u0
      tlfCryptKey ePrivKey newIndex keys0 rc = (b0, rc0, .ok sm0)) :
    fillInDevicesAndServerMap crypto newIndex ((u0, keys0) :: rest) m
      ePubKey ePrivKey tlfCryptKey nsk rc =
      fillInDevicesAndServerMap crypto newIndex rest (alistSet m u0 b0)
        ePubKey ePrivKey tlfCryptKey
        (if sm0.length > 0 then alistSet nsk u0 sm0 else nsk) rc0 := by
  simp [fillInDevicesAndServerMap, hfid]

/-- A user absent from the target list keeps both its bundle-map binding
and its server-key-map binding, whatever the outcome. -/
theorem fdsm_untargeted (crypto : Crypto) (newIndex : Int)
    (ePubKey : TLFEphemeralPublicKey) (ePrivKey : TLFEphemeralPrivateKey)
    (tlfCryptKey : TLFCryptKey) :
    ∀ (cryptKeys : List (UID × List CryptPublicKey)) (m : TLFKeyMap)
      (nsk : serverKeyMap) (rc : Nat) (u : UID),
    u ∉ cryptKeys.map Prod.fst →
    alistFind? (fillInDevicesAndServerMap crypto newIndex cryptKeys m
      ePubKey ePrivKey tlfCryptKey nsk rc).1 u = alistFind? m u ∧
    alistFind? (fillInDevicesAndServerMap crypto newIndex cryptKeys m
      ePubKey ePrivKey tlfCryptKey nsk rc).2.1 u = alistFind? nsk u := by
  intro cryptKeys
  induction cryptKeys with
  | nil =>
    intro m nsk rc u _
    rw [fdsm_nil]
    exact ⟨rfl, rfl⟩
  | cons p rest ih =>
    intro m nsk rc u hu
    obtain ⟨u0, keys0⟩ := p
    have hne : u ≠ u0 := by
      intro h
      exact hu (by simp [h])
    have hurest : u ∉ rest.map Prod.fst := by
      intro h
      exact hu (by simp [h])
    rcases hfid : fillInDeviceInfo crypto ((alistFind? m u0).getD []) u0
        tlfCryptKey ePrivKey newIndex keys0 rc with ⟨b0, rc0, res⟩
    cases res with
    | error e =>
      rw [fdsm_cons_error crypto newIndex u0 keys0 rest m ePubKey ePrivKey
        tlfCryptKey nsk rc b0 rc0 e hfid]
      exact ⟨alistSet_find?_ne m u0 b0 u hne, rfl⟩
    | ok sm0 =>
      rw [fdsm_cons_ok crypto newIndex u0 keys0 rest m ePubKey ePrivKey
        tlfCryptKey nsk rc b0 rc0 sm0 hfid]
      obtain ⟨h1, h2⟩ := ih (alistSet m u0 b0)
        (if sm0.length > 0 then alistSet nsk u0 sm0 else nsk) rc0 u hurest
      constructor
      · rw [h1]
        exact alistSet_find?_ne m u0 b0 u hne
      · rw [h2]
        by_cases hlen : sm0.length > 0
        · rw [if_pos hlen]
          exact alistSet_find?_ne nsk u0 sm0 u hne
        · rw [if_neg hlen]

theorem alistFind?_of_ne_nil {β : Type} {l : List (Nat × β)}
    (h : l ≠ []) : ∃ k v, alistFind? l k = some v := by
  cases l with
  | nil => exact absurd rfl h
  | cons p t =>
    refine ⟨p.1, p.2, ?_⟩
    rcases p with ⟨k, v⟩
    simp [alistFind?]

/-- Per-user result of a successful `fillInDevicesAndServerMap` run over
distinct users: the user's bundle exists afterwards; if some device was
newly recorded for the user then the server-key map binds the user to a
non-empty map whose keys are exactly the newly recorded devices;
otherwise the user's server-key binding is unchanged. -/
theorem fdsm_success_targeted (crypto : Crypto) (newIndex : Int)
    (ePubKey : TLFEphemeralPublicKey) (ePrivKey : TLFEphemeralPrivateKey)
    (tlfCryptKey : TLFCryptKey) :
    ∀ (cryptKeys : List (UID × List CryptPublicKey)) (m : TLFKeyMap)
      (nsk : serverKeyMap) (rc : Nat) (m' : TLFKeyMap)
      (nsk' : serverKeyMap) (rcf : Nat),
    fillInDevicesAndServerMap crypto newIndex cryptKeys m ePubKey ePrivKey
      tlfCryptKey nsk rc = (m', nsk', rcf, none) →
    (cryptKeys.map Prod.fst).Nodup →
    ∀ u keys, (u, keys) ∈ cryptKeys →
    (∃ b, alistFind? m' u = some b) ∧
    ((∃ kid, TLFKeyMap.record? m u kid = none ∧
        TLFKeyMap.record? m' u kid ≠ none) →
      ∃ sm, alistFind? nsk' u = some sm ∧ sm ≠ [] ∧
        ∀ kid, (∃ sh, alistFind? sm kid = some sh) ↔
          (TLFKeyMap.record? m u kid = none ∧
            TLFKeyMap.record? m' u kid ≠ none)) ∧
    ((¬ ∃ kid, TLFKeyMap.record? m u kid = none ∧
        TLFKeyMap.record? m' u kid ≠ none) →
      alistFind? nsk' u = alistFind? nsk u) := by
  intro cryptKeys
  induction cryptKeys with
  | nil =>
    intro m nsk rc m' nsk' rcf hcall hnd u keys hmem
    simp at hmem
  | cons p rest ih =>
    intro m nsk rc m' nsk' rcf hcall hnd u keys hmem
    obtain ⟨u0, keys0⟩ := p
    rw [List.map_cons] at hnd
    obtain ⟨hnd0, hndrest⟩ := List.nodup_cons.mp hnd
    rcases hfid : fillInDeviceInfo crypto ((alistFind? m u0).getD []) u0
        tlfCryptKey ePrivKey newIndex keys0 rc with ⟨b0, rc0, res⟩
    cases res with
    | error e =>
      rw [fdsm_cons_error crypto newIndex u0 keys0 rest m ePubKey ePrivKey
        tlfCryptKey nsk rc b0 rc0 e hfid] at hcall
      simp at hcall
    | ok sm0 =>
      rw [fdsm_cons_ok crypto newIndex u0 keys0 rest m ePubKey ePrivKey
        tlfCryptKey nsk rc b0 rc0 sm0 hfid] at hcall
      rcases List.mem_cons.mp hmem with heq | hmemrest
      · -- `u` is the head user `u0`
        obtain ⟨hu, _⟩ : u = u0 ∧ keys = keys0 := by simpa using heq
        subst hu
        have huntarget := fdsm_untargeted crypto newIndex ePubKey ePrivKey
          tlfCryptKey rest (alistSet m u b0)
          (if sm0.length > 0 then alistSet nsk u sm0 else nsk) rc0 u hnd0
        rw [hcall] at huntarget
        simp only at huntarget
        obtain ⟨hm'u, hnsk'u⟩ := huntarget
        rw [alistSet_find?_self] at hm'u
        have hrecm' : ∀ kid, TLFKeyMap.record? m' u kid =
            alistFind? b0 kid := by
          intro kid
          unfold TLFKeyMap.record?
          rw [hm'u]
        have hrecm : ∀ kid, TLFKeyMap.record? m u kid =
            alistFind? ((alistFind? m u).getD []) kid :=
          fun kid => TLFKeyMap.record?_eq_getD m u kid
        have hiff := fillInDeviceInfo_ok_serverMap crypto u tlfCryptKey
          ePrivKey newIndex keys0 ((alistFind? m u).getD []) rc b0 rc0 sm0
          hfid
        have hnewIff : ∀ kid, (∃ sh, alistFind? sm0 kid = some sh) ↔
            (TLFKeyMap.record? m u kid = none ∧
              TLFKeyMap.record? m' u kid ≠ none) := by
          intro kid
          rw [hrecm, hrecm']
          constructor
          · intro h
            obtain ⟨hnone, info, hsome⟩ := (hiff kid).mp h
            exact ⟨hnone, by rw [hsome]; simp⟩
          · rintro ⟨hnone, hne2⟩
            refine (hiff kid).mpr ⟨hnone, ?_⟩
            cases hb : alistFind? b0 kid with
            | some info => exact ⟨info, rfl⟩
            | none => exact absurd hb hne2
        refine ⟨⟨b0, hm'u⟩, ?_, ?_⟩
        · intro hex
          obtain ⟨kid0, hkid0⟩ := hex
          obtain ⟨sh0, hsh0⟩ := (hnewIff kid0).mpr hkid0
          have hsm0ne : sm0 ≠ [] := by
            intro hnil
            rw [hnil] at hsh0
            cases hsh0
          have hlen : sm0.length > 0 := List.length_pos.mpr hsm0ne
          rw [if_pos hlen, alistSet_find?_self] at hnsk'u
          exact ⟨sm0, hnsk'u, hsm0ne, hnewIff⟩
        · intro hnex
          have hsm0nil : sm0 = [] := by
            by_contra hne
            obtain ⟨k0, v0, hk0⟩ := alistFind?_of_ne_nil hne
            exact hnex ⟨k0, (hnewIff k0).mp ⟨v0, hk0⟩⟩
          rw [hsm0nil] at hnsk'u
          simpa using hnsk'u
      · -- `u` is targeted later, in `rest`
        have hne : u ≠ u0 := by
          intro h
          subst h
          exact hnd0 (List.mem_map.mpr ⟨(u, keys), hmemrest, rfl⟩)
        have hrecm1 : ∀ kid, TLFKeyMap.record? (alistSet m u0 b0) u kid =
            TLFKeyMap.record? m u kid := by
          intro kid
          unfold TLFKeyMap.record?
          rw [alistSet_find?_ne m u0 b0 u hne]
        have hnsk1 : alistFind?
            (if sm0.length > 0 then alistSet nsk u0 sm0 else nsk) u =
            alistFind? nsk u := by
          by_cases hlen : sm0.length > 0
          · rw [if_pos hlen]
            exact alistSet_find?_ne nsk u0 sm0 u hne
          · rw [if_neg hlen]
        have hih := ih (alistSet m u0 b0)
          (if sm0.length > 0 then alistSet nsk u0 sm0 else nsk) rc0 m' nsk'
          rcf hcall hndrest u keys hmemrest
        obtain ⟨hih1, hih2, hih3⟩ := hih
        refine ⟨hih1, ?_, ?_⟩
        · intro hex
          obtain ⟨sm, hsm, hsmne, hsmiff⟩ := hih2 (by
            obtain ⟨kid, hkid⟩ := hex
            exact ⟨kid, by rw [hrecm1]; exact hkid.1, hkid.2⟩)
          refine ⟨sm, hsm, hsmne, ?_⟩
          intro kid
          rw [← hrecm1 kid]
          exact hsmiff kid
        · intro hnex
          rw [← hnsk1]
          exact hih3 (by
            intro hex
            obtain ⟨kid, hkid⟩ := hex
            exact hnex ⟨kid, by rw [← hrecm1 kid]; exact hkid.1, hkid.2⟩)

theorem record?_congr_find? {m m' : TLFKeyMap} {u : UID}
    (h : alistFind? m' u = alistFind? m u) (kid : KID) :
    TLFKeyMap.record? m' u kid = TLFKeyMap.record? m u kid := by
  unfold TLFKeyMap.record?
  rw [h]

/-- A successful `fillInDevices` call decomposes into two successful
`fillInDevicesAndServerMap` passes: the writer pass starting from an
empty server-key map, then the reader pass continuing from the writer
pass's server-key map, both with the same new index. -/
theorem fillInDevices_ok_decomp (tkb : TLFKeyBundle) (crypto : Crypto)
    (wKeys rKeys : List (UID × List CryptPublicKey))
    (ePubKey : TLFEphemeralPublicKey) (ePrivKey : TLFEphemeralPrivateKey)
    (tlfCryptKey : TLFCryptKey) (rc : Nat)
    (tkb' : TLFKeyBundle) (rc' : Nat) (nsk : serverKeyMap)
    (hcall : tkb.fillInDevices crypto wKeys rKeys ePubKey ePrivKey
      tlfCryptKey rc = (tkb', rc', .ok nsk)) :
    ∃ nsk1 rc1,
      fillInDevicesAndServerMap crypto
        (tkb.writer.TLFEphemeralPublicKeys.length : Int) wKeys
        tkb.writer.WKeys ePubKey ePrivKey tlfCryptKey [] rc =
        (tkb'.writer.WKeys, nsk1, rc1, none) ∧
      fillInDevicesAndServerMap crypto
        (tkb.writer.TLFEphemeralPublicKeys.length : Int) rKeys
        tkb.reader.RKeys ePubKey ePrivKey tlfCryptKey nsk1 rc1 =
        (tkb'.reader.RKeys, nsk, rc', none) := by
  have hidx : ((tkb.writer.TLFEphemeralPublicKeys ++ [ePubKey]).length :
      Int) - 1 = (tkb.writer.TLFEphemeralPublicKeys.length : Int) := by
    simp
  simp only [TLFKeyBundle.fillInDevices, hidx] at hcall
  rcases hw : fillInDevicesAndServerMap crypto
      (tkb.writer.TLFEphemeralPublicKeys.length : Int) wKeys
      tkb.writer.WKeys ePubKey ePrivKey tlfCryptKey [] rc with
    ⟨wk, nsk1, rc1, err1⟩
  rw [hw] at hcall
  cases err1 with
  | some e => simp at hcall
  | none =>
    simp only at hcall
    rcases hr : fillInDevicesAndServerMap crypto
        (tkb.writer.TLFEphemeralPublicKeys.length : Int) rKeys
        tkb.reader.RKeys ePubKey ePrivKey tlfCryptKey nsk1 rc1 with
      ⟨rk, nsk2, rc2, err2⟩
    rw [hr] at hcall
    cases err2 with
    | some e => simp at hcall
    | none =>
      simp only [Prod.mk.injEq] at hcall
      obtain ⟨hb, hrc, hnsk⟩ := hcall
      have hok : nsk2 = nsk := by simpa using hnsk
      refine ⟨nsk1, rc1, ?_, ?_⟩
      · rw [← hb]
      · rw [← hb, ← hrc, ← hok]
        exact hr

/-- Per-device record of the C3 counterexample's reader device. -/
def info2Fx : TLFCryptKeyInfo := ⟨⟨60306⟩, ⟨⟨301⟩⟩, 0⟩

/-- Bundle after provisioning writer device 1 and reader device 2 for
the same user 0. -/
def tkbBothFx : TLFKeyBundle :=
  ⟨⟨[(0, [(1, infoFx)])], ⟨7⟩, [⟨50⟩]⟩, ⟨[(0, [(2, info2Fx)])]⟩⟩

/-- Server-key map returned for that call. -/
def nskBothFx : serverKeyMap := [(0, [(2, ⟨101⟩)])]

/-- C3 counterexample: user 0 appears in both the writer and the reader
target maps; writer device 1 and reader device 2 are both newly
provisioned, yet the returned map binds user 0 only to the reader pass's
map `{2 ↦ fresh half}`: the fresh server half generated for writer
device 1 is absent, because the reader pass's assignment for user 0
overwrites the writer pass's entry.  This refutes the claim that each
user is mapped to that user's (complete) per-device server-half map. -/
theorem fillInDevices_reader_pass_overwrites :
    emptyTkbFx.fillInDevices cryptoFx [(0, [⟨1⟩])] [(0, [⟨2⟩])] ⟨50⟩ ⟨60⟩
      ⟨5⟩ 0 = (tkbBothFx, 2, .ok nskBothFx) ∧
    TLFKeyMap.record? emptyTkbFx.writer.WKeys 0 1 = none ∧
    TLFKeyMap.record? tkbBothFx.writer.WKeys 0 1 = some infoFx ∧
    alistFind? nskBothFx 0 = some [(2, ⟨101⟩)] ∧
    alistFind? [((2 : KID), (⟨101⟩ : TLFCryptKeyServerHalf))] 1 = none :=
  ⟨by rfl, by rfl, by rfl, by rfl, by rfl⟩

/-- C3 (amended): under the assumption that the writer and reader target
maps have Go-map-like distinct keys and no user appears in both maps,
`fillInDevices` appends the ephemeral public key exactly once, uses the
single resulting index (new length minus one) for every newly
provisioned writer and reader device, ensures a per-user bundle for
every targeted user, and returns exactly the users with at least one
newly provisioned device, each bound to that user's non-empty per-device
server-half map.  (Without the no-overlap assumption the reader pass's
per-user map overwrites the writer pass's, dropping the writer-side
server halves for that user.) -/
theorem fillInDevices_result_spec (tkb : TLFKeyBundle) (crypto : Crypto)
    (wKeys rKeys : List (UID × List CryptPublicKey))
    (ePubKey : TLFEphemeralPublicKey) (ePrivKey : TLFEphemeralPrivateKey)
    (tlfCryptKey : TLFCryptKey) (rc : Nat)
    (tkb' : TLFKeyBundle) (rc' : Nat) (nsk : serverKeyMap)
    (hwnd : (wKeys.map Prod.fst).Nodup)
    (hrnd : (rKeys.map Prod.fst).Nodup)
    (hdisj : ∀ u, u ∈ wKeys.map Prod.fst → u ∉ rKeys.map Prod.fst)
    (hcall : tkb.fillInDevices crypto wKeys rKeys ePubKey ePrivKey
      tlfCryptKey rc = (tkb', rc', .ok nsk)) :
    tkb'.writer.TLFEphemeralPublicKeys =
      tkb.writer.TLFEphemeralPublicKeys ++ [ePubKey] ∧
    (∀ u kid info,
      TLFKeyMap.record? tkb'.writer.WKeys u kid = some info →
      TLFKeyMap.record? tkb.writer.WKeys u kid = none →
      info.EPubKeyIndex =
        (tkb'.writer.TLFEphemeralPublicKeys.length : Int) - 1) ∧
    (∀ u kid info,
      TLFKeyMap.record? tkb'.reader.RKeys u kid = some info →
      TLFKeyMap.record? tkb.reader.RKeys u kid = none →
      info.EPubKeyIndex =
        (tkb'.writer.TLFEphemeralPublicKeys.length : Int) - 1) ∧
    (∀ u, u ∈ wKeys.map Prod.fst →
      ∃ b, alistFind? tkb'.writer.WKeys u = some b) ∧
    (∀ u, u ∈ rKeys.map Prod.fst →
      ∃ b, alistFind? tkb'.reader.RKeys u = some b) ∧
    (∀ u, (∃ sm, alistFind? nsk u = some sm) ↔
      (∃ kid, (TLFKeyMap.record? tkb.writer.WKeys u kid = none ∧
          TLFKeyMap.record? tkb'.writer.WKeys u kid ≠ none) ∨
        (TLFKeyMap.record? tkb.reader.RKeys u kid = none ∧
          TLFKeyMap.record? tkb'.reader.RKeys u kid ≠ none))) ∧
    (∀ u sm, alistFind? nsk u = some sm → sm ≠ [] ∧
      ∀ kid, (∃ sh, alistFind? sm kid = some sh) ↔
        ((TLFKeyMap.record? tkb.writer.WKeys u kid = none ∧
          TLFKeyMap.record? tkb'.writer.WKeys u kid ≠ none) ∨
        (TLFKeyMap.record? tkb.reader.RKeys u kid = none ∧
          TLFKeyMap.record? tkb'.reader.RKeys u kid ≠ none))) := by
  have hshape := fillInDevices_shape tkb crypto wKeys rKeys ePubKey
    ePrivKey tlfCryptKey rc
  rw [hcall] at hshape
  simp only at hshape
  obtain ⟨heph, _, hwrec, _, hrrec, _⟩ := hshape
  have hlen : tkb'.writer.TLFEphemeralPublicKeys.length =
      tkb.writer.TLFEphemeralPublicKeys.length + 1 := by
    rw [heph]; simp
  have hidx2 : (tkb'.writer.TLFEphemeralPublicKeys.length : Int) - 1 =
      (tkb.writer.TLFEphemeralPublicKeys.length : Int) := by
    rw [hlen]; push_cast; ring
  obtain ⟨nsk1, rc1, hwcall, hrcall⟩ := fillInDevices_ok_decomp tkb crypto
    wKeys rKeys ePubKey ePrivKey tlfCryptKey rc tkb' rc' nsk hcall
  have keyfact : ∀ u,
      ((∃ sm, alistFind? nsk u = some sm) ↔
        (∃ kid, (TLFKeyMap.record? tkb.writer.WKeys u kid = none ∧
            TLFKeyMap.record? tkb'.writer.WKeys u kid ≠ none) ∨
          (TLFKeyMap.record? tkb.reader.RKeys u kid = none ∧
            TLFKeyMap.record? tkb'.reader.RKeys u kid ≠ none))) ∧
      (∀ sm, alistFind? nsk u = some sm → sm ≠ [] ∧
        ∀ kid, (∃ sh, alistFind? sm kid = some sh) ↔
          ((TLFKeyMap.record? tkb.writer.WKeys u kid = none ∧
            TLFKeyMap.record? tkb'.writer.WKeys u kid ≠ none) ∨
          (TLFKeyMap.record? tkb.reader.RKeys u kid = none ∧
            TLFKeyMap.record? tkb'.reader.RKeys u kid ≠ none))) := by
    intro u
    by_cases huw : u ∈ wKeys.map Prod.fst
    · -- user targeted by the writer pass only
      have hur : u ∉ rKeys.map Prod.fst := hdisj u huw
      have hun := fdsm_untargeted crypto
        (tkb.writer.TLFEphemeralPublicKeys.length : Int) ePubKey ePrivKey
        tlfCryptKey rKeys tkb.reader.RKeys nsk1 rc1 u hur
      rw [hrcall] at hun
      simp only at hun
      obtain ⟨hrmap, hrnskEq⟩ := hun
      have hnoR : ∀ kid,
          ¬(TLFKeyMap.record? tkb.reader.RKeys u kid = none ∧
            TLFKeyMap.record? tkb'.reader.RKeys u kid ≠ none) := by
        rintro kid ⟨h1, h2⟩
        exact h2 ((record?_congr_find? hrmap kid).trans h1)
      obtain ⟨keys, hmem⟩ : ∃ keys, (u, keys) ∈ wKeys := by
        obtain ⟨⟨u', keys⟩, hmem, hfst⟩ := List.mem_map.mp huw
        refine ⟨keys, ?_⟩
        have : u' = u := hfst
        rwa [this] at hmem
      obtain ⟨_, htr2, htr3⟩ := fdsm_success_targeted crypto
        (tkb.writer.TLFEphemeralPublicKeys.length : Int) ePubKey ePrivKey
        tlfCryptKey wKeys tkb.writer.WKeys [] rc tkb'.writer.WKeys nsk1
        rc1 hwcall hwnd u keys hmem
      constructor
      · constructor
        · rintro ⟨sm, hsm⟩
          rw [hrnskEq] at hsm
          by_cases hex : ∃ kid,
              TLFKeyMap.record? tkb.writer.WKeys u kid = none ∧
              TLFKeyMap.record? tkb'.writer.WKeys u kid ≠ none
          · obtain ⟨kid, hkid⟩ := hex
            exact ⟨kid, Or.inl hkid⟩
          · rw [htr3 hex] at hsm
            exact absurd hsm (by simp [alistFind?])
        · rintro ⟨kid, hkid | hkid⟩
          · obtain ⟨sm, hsm, _, _⟩ := htr2 ⟨kid, hkid⟩
            exact ⟨sm, by rw [hrnskEq]; exact hsm⟩
          · exact absurd hkid (hnoR kid)
      · intro sm hsm
        rw [hrnskEq] at hsm
        by_cases hex : ∃ kid,
            TLFKeyMap.record? tkb.writer.WKeys u kid = none ∧
            TLFKeyMap.record? tkb'.writer.WKeys u kid ≠ none
        · obtain ⟨sm', hsm', hne', hiff'⟩ := htr2 hex
          have : sm' = sm := by
            have := hsm'.symm.trans hsm
            simpa using this
          subst this
          refine ⟨hne', ?_⟩
          intro kid
          constructor
          · intro h
            exact Or.inl ((hiff' kid).mp h)
          · rintro (h | h)
            · exact (hiff' kid).mpr h
            · exact absurd h (hnoR kid)
        · rw [htr3 hex] at hsm
          exact absurd hsm (by simp [alistFind?])
    · by_cases hurr : u ∈ rKeys.map Prod.fst
      · -- user targeted by the reader pass only
        have hunw := fdsm_untargeted crypto
          (tkb.writer.TLFEphemeralPublicKeys.length : Int) ePubKey
          ePrivKey tlfCryptKey wKeys tkb.writer.WKeys [] rc u huw
        rw [hwcall] at hunw
        simp only at hunw
        obtain ⟨hwmap, hwnskEq⟩ := hunw
        have hnsk1none : alistFind? nsk1 u = none := by
          rw [hwnskEq]; rfl
        have hnoW : ∀ kid,
            ¬(TLFKeyMap.record? tkb.writer.WKeys u kid = none ∧
              TLFKeyMap.record? tkb'.writer.WKeys u kid ≠ none) := by
          rintro kid ⟨h1, h2⟩
          exact h2 ((record?_congr_find? hwmap kid).trans h1)
        obtain ⟨keys, hmem⟩ : ∃ keys, (u, keys) ∈ rKeys := by
          obtain ⟨⟨u', keys⟩, hmem, hfst⟩ := List.mem_map.mp hurr
          refine ⟨keys, ?_⟩
          have : u' = u := hfst
          rwa [this] at hmem
        obtain ⟨_, htr2, htr3⟩ := fdsm_success_targeted crypto
          (tkb.writer.TLFEphemeralPublicKeys.length : Int) ePubKey
          ePrivKey tlfCryptKey rKeys tkb.reader.RKeys nsk1 rc1
          tkb'.reader.RKeys nsk rc' hrcall hrnd u keys hmem
        constructor
        · constructor
          · rintro ⟨sm, hsm⟩
            by_cases hex : ∃ kid,
                TLFKeyMap.record? tkb.reader.RKeys u kid = none ∧
                TLFKeyMap.record? tkb'.reader.RKeys u kid ≠ none
            · obtain ⟨kid, hkid⟩ := hex
              exact ⟨kid, Or.inr hkid⟩
            · rw [htr3 hex, hnsk1none] at hsm
              cases hsm
          · rintro ⟨kid, hkid | hkid⟩
            · exact absurd hkid (hnoW kid)
            · obtain ⟨sm, hsm, _, _⟩ := htr2 ⟨kid, hkid⟩
              exact ⟨sm, hsm⟩
        · intro sm hsm
          by_cases hex : ∃ kid,
              TLFKeyMap.record? tkb.reader.RKeys u kid = none ∧
              TLFKeyMap.record? tkb'.reader.RKeys u kid ≠ none
          · obtain ⟨sm', hsm', hne', hiff'⟩ := htr2 hex
            have : sm' = sm := by
              have := hsm'.symm.trans hsm
              simpa using this
            subst this
            refine ⟨hne', ?_⟩
            intro kid
            constructor
            · intro h
              exact Or.inr ((hiff' kid).mp h)
            · rintro (h | h)
              · exact absurd h (hnoW kid)
              · exact (hiff' kid).mpr h
          · rw [htr3 hex, hnsk1none] at hsm
            cases hsm
      · -- user targeted by neither pass
        have hunw := fdsm_untargeted crypto
          (tkb.writer.TLFEphemeralPublicKeys.length : Int) ePubKey
          ePrivKey tlfCryptKey wKeys tkb.writer.WKeys [] rc u huw
        rw [hwcall] at hunw
        simp only at hunw
        obtain ⟨hwmap, hwnskEq⟩ := hunw
        have hunr := fdsm_untargeted crypto
          (tkb.writer.TLFEphemeralPublicKeys.length : Int) ePubKey
          ePrivKey tlfCryptKey rKeys tkb.reader.RKeys nsk1 rc1 u hurr
        rw [hrcall] at hunr
        simp only at hunr
        obtain ⟨hrmap, hrnskEq⟩ := hunr
        have hnsknone : alistFind? nsk u = none := by
          rw [hrnskEq, hwnskEq]; rfl
        have hnoW : ∀ kid,
            ¬(TLFKeyMap.record? tkb.writer.WKeys u kid = none ∧
              TLFKeyMap.record? tkb'.writer.WKeys u kid ≠ none) := by
          rintro kid ⟨h1, h2⟩
          exact h2 ((record?_congr_find? hwmap kid).trans h1)
        have hnoR : ∀ kid,
            ¬(TLFKeyMap.record? tkb.reader.RKeys u kid = none ∧
              TLFKeyMap.record? tkb'.reader.RKeys u kid ≠ none) := by
          rintro kid ⟨h1, h2⟩
          exact h2 ((record?_congr_find? hrmap kid).trans h1)
        constructor
        · constructor
          · rintro ⟨sm, hsm⟩
            rw [hnsknone] at hsm
            cases hsm
          · rintro ⟨kid, hkid | hkid⟩
            · exact absurd hkid (hnoW kid)
            · exact absurd hkid (hnoR kid)
        · intro sm hsm
          rw [hnsknone] at hsm
          cases hsm
  refine ⟨heph, ?_, ?_, ?_, ?_, fun u => (keyfact u).1,
    fun u sm => (keyfact u).2 sm⟩
  · intro u kid info hsome hnone
    rcases hwrec u kid with h | ⟨_, info2, hsome2, hidx3⟩
    · rw [hsome, hnone] at h
      exact absurd h (by simp)
    · have hinj : info2 = info := by simpa using hsome2.symm.trans hsome
      rw [hidx2, ← hinj]
      exact hidx3
  · intro u kid info hsome hnone
    rcases hrrec u kid with h | ⟨_, info2, hsome2, hidx3⟩
    · rw [hsome, hnone] at h
      exact absurd h (by simp)
    · have hinj : info2 = info := by simpa using hsome2.symm.trans hsome
      rw [hidx2, ← hinj]
      exact hidx3
  · intro u hu
    obtain ⟨⟨u', keys⟩, hmem, hfst⟩ := List.mem_map.mp hu
    have : u' = u := hfst
    subst this
    exact (fdsm_success_targeted crypto
      (tkb.writer.TLFEphemeralPublicKeys.length : Int) ePubKey ePrivKey
      tlfCryptKey wKeys tkb.writer.WKeys [] rc tkb'.writer.WKeys nsk1 rc1
      hwcall hwnd u' keys hmem).1
  · intro u hu
    obtain ⟨⟨u', keys⟩, hmem, hfst⟩ := List.mem_map.mp hu
    have : u' = u := hfst
    subst this
    exact (fdsm_success_targeted crypto
      (tkb.writer.TLFEphemeralPublicKeys.length : Int) ePubKey ePrivKey
      tlfCryptKey rKeys tkb.reader.RKeys nsk1 rc1 tkb'.reader.RKeys nsk
      rc' hrcall hrnd u' keys hmem).1

/-- Per-device record of the disjoint-users reader device. -/
def info3Fx : TLFCryptKeyInfo := ⟨⟨60406⟩, ⟨⟨20401⟩⟩, 0⟩

/-- Bundle after provisioning writer user 0 / device 1 and reader user 2
/ device 3 in one call. -/
def tkbDisjFx : TLFKeyBundle :=
  ⟨⟨[(0, [(1, infoFx)])], ⟨7⟩, [⟨50⟩]⟩, ⟨[(2, [(3, info3Fx)])]⟩⟩

/-- Server-key map returned for that call. -/
def nskDisjFx : serverKeyMap := [(0, [(1, ⟨100⟩)]), (2, [(3, ⟨101⟩)])]

/-- Witness for the amended C3 at a concrete disjoint-users input. -/
theorem fillInDevices_result_spec_witness :
    emptyTkbFx.fillInDevices cryptoFx [(0, [⟨1⟩])] [(2, [⟨3⟩])] ⟨50⟩ ⟨60⟩
      ⟨5⟩ 0 = (tkbDisjFx, 2, .ok nskDisjFx) ∧
    tkbDisjFx.writer.TLFEphemeralPublicKeys =
      emptyTkbFx.writer.TLFEphemeralPublicKeys ++ [⟨50⟩] :=
  ⟨by rfl,
    (fillInDevices_result_spec emptyTkbFx cryptoFx [(0, [⟨1⟩])]
      [(2, [⟨3⟩])] ⟨50⟩ ⟨60⟩ ⟨5⟩ 0 tkbDisjFx 2 nskDisjFx (by decide)
      (by decide) (by intro u hu; simp at hu; subst hu; decide)
      (by rfl)).1⟩

/-! ### Heap model for the deep-copy / aliasing claim

Go maps and slices are heap references; to state deep-copy independence
(mutating the copy must not change the original) the mutable collections
are modelled in an explicit store: user bundles, key maps (whose values
are references to user bundles), and ephemeral key slices, each
addressed by a reference allocated from a counter. -/

/-- Store of mutable collections.  `uckbH` holds user bundles, `tkmH`
holds key maps (user → reference to a user bundle), `epkH` holds
ephemeral key slices; `next` is the next fresh reference. -/
structure Heap where
  uckbH : List (Nat × List (KID × TLFCryptKeyInfo))
  tkmH : List (Nat × List (UID × Nat))
  epkH : List (Nat × List TLFEphemeralPublicKey)
  next : Nat
  deriving DecidableEq, Repr

def Heap.readUckb (h : Heap) (r : Nat) : List (KID × TLFCryptKeyInfo) :=
  (alistFind? h.uckbH r).getD []

def Heap.readTkm (h : Heap) (r : Nat) : List (UID × Nat) :=
  (alistFind? h.tkmH r).getD []

def Heap.readEpk (h : Heap) (r : Nat) : List TLFEphemeralPublicKey :=
  (alistFind? h.epkH r).getD []

def Heap.allocUckb (h : Heap) (content : List (KID × TLFCryptKeyInfo)) :
    Heap × Nat :=
  ({ h with uckbH := alistSet h.uckbH h.next content, next := h.next + 1 },
    h.next)

def Heap.allocTkm (h : Heap) (content : List (UID × Nat)) : Heap × Nat :=
  ({ h with tkmH := alistSet h.tkmH h.next content, next := h.next + 1 },
    h.next)

def Heap.allocEpk (h : Heap) (content : List TLFEphemeralPublicKey) :
    Heap × Nat :=
  ({ h with epkH := alistSet h.epkH h.next content, next := h.next + 1 },
    h.next)

/-- Go map write `uckb[kid] = info` through a reference. -/
def Heap.setUckbEntry (h : Heap) (r : Nat) (kid : KID)
    (info : TLFCryptKeyInfo) : Heap :=
  { h with uckbH := alistSet h.uckbH r (alistSet (h.readUckb r) kid info) }

/-- Go map write `tkm[u] = bundle` through a reference. -/
def Heap.setTkmEntry (h : Heap) (r : Nat) (u : UID) (br : Nat) : Heap :=
  { h with tkmH := alistSet h.tkmH r (alistSet (h.readTkm r) u br) }

/-- Append to the ephemeral key slice through a reference. -/
def Heap.appendEpk (h : Heap) (r : Nat) (e : TLFEphemeralPublicKey) :
    Heap :=
  { h with epkH := alistSet h.epkH r (h.readEpk r ++ [e]) }

/-- `UserCryptKeyBundle.DeepCopy` in the heap model: allocate a fresh map
holding the same entries (each entry is copied by value:
`TLFCryptKeyInfo.DeepCopy` copies every field of the record, and the
leaf `DeepCopy`s of `EncryptedTLFCryptKeyClientHalf` and
`TLFCryptKeyServerHalfID` are value copies). -/
def uckbDeepCopyH (h : Heap) (r : Nat) : Heap × Nat :=
  h.allocUckb (h.readUckb r)

/-- The per-entry loop of `TLFKeyMap.DeepCopy`: deep-copy each user's
bundle into a fresh reference. -/
def tkmCopyEntries : Heap → List (UID × Nat) → Heap × List (UID × Nat)
  | h, [] => (h, [])
  | h, (u, r) :: rest =>
    let pr := uckbDeepCopyH h r
    let pr2 := tkmCopyEntries pr.1 rest
    (pr2.1, (u, pr.2) :: pr2.2)

/-- `TLFKeyMap.DeepCopy` in the heap model: fresh outer map whose
entries point at fresh deep copies of each per-user bundle. -/
def tkmDeepCopyH (h : Heap) (r : Nat) : Heap × Nat :=
  let pr := tkmCopyEntries h (h.readTkm r)
  pr.1.allocTkm pr.2

/-- Modelled from the spec: `TLFEphemeralPublicKeys.DeepCopy` is code of
this repository that is not under src/ (only its call site in
`TLFWriterKeyBundle.DeepCopy` is); per the spec, deep-copy independence
holds at the ephemeral-list level, so it allocates a fresh sequence with
the same elements. -/
def epkDeepCopyH (h : Heap) (r : Nat) : Heap × Nat :=
  h.allocEpk (h.readEpk r)

/-- Writer bundle with its two mutable collections as references. -/
structure TLFWriterKeyBundleH where
  WKeys : Nat
  TLFPublicKey : TLFPublicKey
  TLFEphemeralPublicKeys : Nat
  deriving DecidableEq, Repr

/-- Reader bundle with its mutable collection as a reference. -/
structure TLFReaderKeyBundleH where
  RKeys : Nat
  deriving DecidableEq, Repr

/-- Combined bundle in the heap model. -/
structure TLFKeyBundleH where
  writer : TLFWriterKeyBundleH
  reader : TLFReaderKeyBundleH
  deriving DecidableEq, Repr

/-- `TLFWriterKeyBundle.DeepCopy` in the heap model: fresh struct with a
deep-copied key map, the folder public key copied by value
(`TLFPublicKey.DeepCopy` of the fixed-size value type, modelled from the
spec), and a deep-copied ephemeral key list. -/
def tlfWriterKeyBundleDeepCopyH (h : Heap) (b : TLFWriterKeyBundleH) :
    Heap × TLFWriterKeyBundleH :=
  let pw := tkmDeepCopyH h b.WKeys
  let pe := epkDeepCopyH pw.1 b.TLFEphemeralPublicKeys
  (pe.1, ⟨pw.2, b.TLFPublicKey, pe.2⟩)

/-- `TLFReaderKeyBundle.DeepCopy` in the heap model. -/
def tlfReaderKeyBundleDeepCopyH (h : Heap) (b : TLFReaderKeyBundleH) :
    Heap × TLFReaderKeyBundleH :=
  let pr := tkmDeepCopyH h b.RKeys
  (pr.1, ⟨pr.2⟩)

/-- `TLFKeyBundle.DeepCopy` in the heap model. -/
def tlfKeyBundleDeepCopyH (h : Heap) (b : TLFKeyBundleH) :
    Heap × TLFKeyBundleH :=
  let pw := tlfWriterKeyBundleDeepCopyH h b.writer
  let pr := tlfReaderKeyBundleDeepCopyH pw.1 b.reader
  (pr.1, ⟨pw.2, pr.2⟩)

/-- Fully dereferenced view of a key map: per-user bundles by content. -/
def Heap.viewKeyMap (h : Heap) (r : Nat) :
    List (UID × List (KID × TLFCryptKeyInfo)) :=
  (h.readTkm r).map (fun p => (p.1, h.readUckb p.2))

/-- Fully dereferenced view of a combined bundle: writer per-user map,
folder public key, ephemeral key list, reader per-user map. -/
def Heap.viewBundle (h : Heap) (b : TLFKeyBundleH) :
    List (UID × List (KID × TLFCryptKeyInfo)) × TLFPublicKey ×
      List TLFEphemeralPublicKey ×
      List (UID × List (KID × TLFCryptKeyInfo)) :=
  (h.viewKeyMap b.writer.WKeys, b.writer.TLFPublicKey,
    h.readEpk b.writer.TLFEphemeralPublicKeys,
    h.viewKeyMap b.reader.RKeys)

/-- All references reachable from the bundle are allocated (below
`next`). -/
def bundleRefsBound (h : Heap) (b : TLFKeyBundleH) : Prop :=
  b.writer.WKeys < h.next ∧ b.writer.TLFEphemeralPublicKeys < h.next ∧
  b.reader.RKeys < h.next ∧
  (∀ p ∈ h.readTkm b.writer.WKeys, p.2 < h.next) ∧
  (∀ p ∈ h.readTkm b.reader.RKeys, p.2 < h.next)

instance (h : Heap) (b : TLFKeyBundleH) : Decidable (bundleRefsBound h b) := by
  unfold bundleRefsBound
  infer_instance

/-- Reads below `h.next` agree between `h` and a heap obtained from `h`
by allocations only. -/
def heapLE (h h2 : Heap) : Prop :=
  h.next ≤ h2.next ∧
  (∀ r, r < h.next → alistFind? h2.uckbH r = alistFind? h.uckbH r) ∧
  (∀ r, r < h.next → alistFind? h2.tkmH r = alistFind? h.tkmH r) ∧
  (∀ r, r < h.next → alistFind? h2.epkH r = alistFind? h.epkH r)

theorem heapLE_refl (h : Heap) : heapLE h h :=
  ⟨le_refl _, fun _ _ => rfl, fun _ _ => rfl, fun _ _ => rfl⟩

theorem heapLE_trans {h1 h2 h3 : Heap} (a : heapLE h1 h2)
    (b : heapLE h2 h3) : heapLE h1 h3 := by
  obtain ⟨a1, a2, a3, a4⟩ := a
  obtain ⟨b1, b2, b3, b4⟩ := b
  exact ⟨le_trans a1 b1,
    fun r hr => (b2 r (lt_of_lt_of_le hr a1)).trans (a2 r hr),
    fun r hr => (b3 r (lt_of_lt_of_le hr a1)).trans (a3 r hr),
    fun r hr => (b4 r (lt_of_lt_of_le hr a1)).trans (a4 r hr)⟩

theorem allocUckb_spec (h : Heap) (c : List (KID × TLFCryptKeyInfo)) :
    heapLE h (h.allocUckb c).1 ∧ (h.allocUckb c).2 = h.next ∧
    (h.allocUckb c).1.next = h.next + 1 ∧
    (h.allocUckb c).1.readUckb h.next = c := by
  refine ⟨⟨by simp [Heap.allocUckb], ?_, fun _ _ => rfl, fun _ _ => rfl⟩,
    rfl, rfl, ?_⟩
  · intro r hr
    exact alistSet_find?_ne _ _ _ _ (by omega)
  · simp only [Heap.readUckb, Heap.allocUckb]
    rw [alistSet_find?_self]
    rfl

theorem allocTkm_spec (h : Heap) (c : List (UID × Nat)) :
    heapLE h (h.allocTkm c).1 ∧ (h.allocTkm c).2 = h.next ∧
    (h.allocTkm c).1.next = h.next + 1 ∧
    (h.allocTkm c).1.readTkm h.next = c := by
  refine ⟨⟨by simp [Heap.allocTkm], fun _ _ => rfl, ?_, fun _ _ => rfl⟩,
    rfl, rfl, ?_⟩
  · intro r hr
    exact alistSet_find?_ne _ _ _ _ (by omega)
  · simp only [Heap.readTkm, Heap.allocTkm]
    rw [alistSet_find?_self]
    rfl

theorem allocEpk_spec (h : Heap) (c : List TLFEphemeralPublicKey) :
    heapLE h (h.allocEpk c).1 ∧ (h.allocEpk c).2 = h.next ∧
    (h.allocEpk c).1.next = h.next + 1 ∧
    (h.allocEpk c).1.readEpk h.next = c := by
  refine ⟨⟨by simp [Heap.allocEpk], fun _ _ => rfl, fun _ _ => rfl, ?_⟩,
    rfl, rfl, ?_⟩
  · intro r hr
    exact alistSet_find?_ne _ _ _ _ (by omega)
  · simp only [Heap.readEpk, Heap.allocEpk]
    rw [alistSet_find?_self]
    rfl

theorem heapLE_readUckb {h h2 : Heap} (hle : heapLE h h2) (r : Nat)
    (hr : r < h.next) : h2.readUckb r = h.readUckb r := by
  unfold Heap.readUckb
  rw [hle.2.1 r hr]

theorem heapLE_readTkm {h h2 : Heap} (hle : heapLE h h2) (r : Nat)
    (hr : r < h.next) : h2.readTkm r = h.readTkm r := by
  unfold Heap.readTkm
  rw [hle.2.2.1 r hr]

theorem heapLE_readEpk {h h2 : Heap} (hle : heapLE h h2) (r : Nat)
    (hr : r < h.next) : h2.readEpk r = h.readEpk r := by
  unfold Heap.readEpk
  rw [hle.2.2.2 r hr]

theorem heapLE_viewKeyMap {h h2 : Heap} (hle : heapLE h h2) (r : Nat)
    (hr : r < h.next) (hin : ∀ p ∈ h.readTkm r, p.2 < h.next) :
    h2.viewKeyMap r = h.viewKeyMap r := by
  unfold Heap.viewKeyMap
  rw [heapLE_readTkm hle r hr]
  refine List.map_congr_left ?_
  intro p hp
  rw [heapLE_readUckb hle p.2 (hin p hp)]

theorem heapLE_viewBundle {h h2 : Heap} {b : TLFKeyBundleH}
    (hle : heapLE h h2) (hwf : bundleRefsBound h b) :
    h2.viewBundle b = h.viewBundle b := by
  obtain ⟨h1, h2', h3, h4, h5⟩ := hwf
  unfold Heap.viewBundle
  rw [heapLE_viewKeyMap hle _ h1 h4, heapLE_viewKeyMap hle _ h3 h5,
    heapLE_readEpk hle _ h2']

/-- The per-entry copy loop allocates only fresh user-bundle references
and reproduces the dereferenced content exactly. -/
theorem tkmCopyEntries_spec :
    ∀ (entries : List (UID × Nat)) (h : Heap),
    (∀ p ∈ entries, p.2 < h.next) →
    heapLE h (tkmCopyEntries h entries).1 ∧
    (∀ p ∈ (tkmCopyEntries h entries).2,
      h.next ≤ p.2 ∧ p.2 < (tkmCopyEntries h entries).1.next) ∧
    (tkmCopyEntries h entries).2.map
      (fun p => (p.1, (tkmCopyEntries h entries).1.readUckb p.2)) =
      entries.map (fun p => (p.1, h.readUckb p.2)) := by
  intro entries
  induction entries with
  | nil =>
    intro h _
    exact ⟨heapLE_refl h, by simp [tkmCopyEntries], by simp [tkmCopyEntries]⟩
  | cons p rest ih =>
    intro h hb
    obtain ⟨u, r⟩ := p
    obtain ⟨haLE, haRef, haNext, haRead⟩ := allocUckb_spec h (h.readUckb r)
    have hrestb : ∀ q ∈ rest, q.2 < (h.allocUckb (h.readUckb r)).1.next := by
      intro q hq
      have := hb q (List.mem_cons_of_mem _ hq)
      omega
    obtain ⟨ihLE, ihRefs, ihMap⟩ := ih (h.allocUckb (h.readUckb r)).1 hrestb
    have hi1 := ihLE.1
    rw [haNext] at hi1
    have hstep1 : (tkmCopyEntries h ((u, r) :: rest)).1 =
        (tkmCopyEntries (h.allocUckb (h.readUckb r)).1 rest).1 := rfl
    have hstep2 : (tkmCopyEntries h ((u, r) :: rest)).2 =
        (u, (h.allocUckb (h.readUckb r)).2) ::
          (tkmCopyEntries (h.allocUckb (h.readUckb r)).1 rest).2 := rfl
    rw [hstep1, hstep2, haRef]
    refine ⟨heapLE_trans haLE ihLE, ?_, ?_⟩
    · intro q hq
      rcases List.mem_cons.mp hq with hq | hq
      · rw [hq]
        exact ⟨le_refl _, by omega⟩
      · obtain ⟨hq1, hq2⟩ := ihRefs q hq
        rw [haNext] at hq1
        exact ⟨by omega, hq2⟩
    · simp only [List.map_cons]
      rw [ihMap]
      have hhead : (tkmCopyEntries (h.allocUckb (h.readUckb r)).1
          rest).1.readUckb h.next = h.readUckb r := by
        rw [heapLE_readUckb ihLE h.next (by omega)]
        exact haRead
      rw [hhead]
      congr 1
      refine List.map_congr_left ?_
      intro q hq
      rw [heapLE_readUckb haLE q.2 (hb q (List.mem_cons_of_mem _ hq))]

/-- `TLFKeyMap.DeepCopy` in the heap model: allocates only fresh
references (outer map and every inner bundle) and reproduces the
dereferenced per-user content exactly. -/
theorem tkmDeepCopyH_spec (h : Heap) (r : Nat)
    (hb : ∀ p ∈ h.readTkm r, p.2 < h.next) :
    heapLE h (tkmDeepCopyH h r).1 ∧
    h.next ≤ (tkmDeepCopyH h r).2 ∧
    (tkmDeepCopyH h r).2 < (tkmDeepCopyH h r).1.next ∧
    (∀ p ∈ (tkmDeepCopyH h r).1.readTkm (tkmDeepCopyH h r).2,
      h.next ≤ p.2 ∧ p.2 < (tkmDeepCopyH h r).1.next) ∧
    (tkmDeepCopyH h r).1.viewKeyMap (tkmDeepCopyH h r).2 =
      h.viewKeyMap r := by
  obtain ⟨ceLE, ceRefs, ceMap⟩ := tkmCopyEntries_spec (h.readTkm r) h hb
  have hres : tkmDeepCopyH h r =
      (tkmCopyEntries h (h.readTkm r)).1.allocTkm
        (tkmCopyEntries h (h.readTkm r)).2 := rfl
  rw [hres]
  set h1 := (tkmCopyEntries h (h.readTkm r)).1 with hh1
  set es := (tkmCopyEntries h (h.readTkm r)).2 with hes
  obtain ⟨aLE, aRef, aNext, aRead⟩ := allocTkm_spec h1 es
  refine ⟨heapLE_trans ceLE aLE, ?_, ?_, ?_, ?_⟩
  · rw [aRef]
    exact ceLE.1
  · rw [aRef, aNext]
    omega
  · intro p hp
    rw [aRef, aRead] at hp
    have hq := ceRefs p hp
    refine ⟨hq.1, ?_⟩
    rw [aNext]
    omega
  · show (h1.allocTkm es).1.viewKeyMap (h1.allocTkm es).2 = h.viewKeyMap r
    unfold Heap.viewKeyMap
    rw [aRef, aRead]
    rw [show es.map (fun p => (p.1, (h1.allocTkm es).1.readUckb p.2)) =
        es.map (fun p => (p.1, h1.readUckb p.2)) from
      List.map_congr_left (fun p hp => by
        rw [heapLE_readUckb aLE p.2 (ceRefs p hp).2])]
    exact ceMap

/-- `TLFKeyBundle.DeepCopy` in the heap model: the new bundle uses only
freshly allocated references (outer maps, inner bundles, ephemeral list)
and its dereferenced view equals the original's. -/
theorem tlfKeyBundleDeepCopyH_spec (h : Heap) (b : TLFKeyBundleH)
    (hwf : bundleRefsBound h b) :
    heapLE h (tlfKeyBundleDeepCopyH h b).1 ∧
    h.next ≤ (tlfKeyBundleDeepCopyH h b).2.writer.WKeys ∧
    h.next ≤ (tlfKeyBundleDeepCopyH h b).2.writer.TLFEphemeralPublicKeys ∧
    h.next ≤ (tlfKeyBundleDeepCopyH h b).2.reader.RKeys ∧
    (∀ p ∈ (tlfKeyBundleDeepCopyH h b).1.readTkm
      (tlfKeyBundleDeepCopyH h b).2.writer.WKeys, h.next ≤ p.2) ∧
    (∀ p ∈ (tlfKeyBundleDeepCopyH h b).1.readTkm
      (tlfKeyBundleDeepCopyH h b).2.reader.RKeys, h.next ≤ p.2) ∧
    (tlfKeyBundleDeepCopyH h b).1.viewBundle
      (tlfKeyBundleDeepCopyH h b).2 = h.viewBundle b := by
  obtain ⟨hbW, hbE, hbR, hbWin, hbRin⟩ := hwf
  obtain ⟨wLE, wRef, wRefLt, wIn, wView⟩ :=
    tkmDeepCopyH_spec h b.writer.WKeys hbWin
  have he1 : epkDeepCopyH (tkmDeepCopyH h b.writer.WKeys).1
      b.writer.TLFEphemeralPublicKeys =
      (tkmDeepCopyH h b.writer.WKeys).1.allocEpk
        ((tkmDeepCopyH h b.writer.WKeys).1.readEpk
          b.writer.TLFEphemeralPublicKeys) := rfl
  obtain ⟨eLE, eRef, eNext, eRead⟩ :=
    allocEpk_spec (tkmDeepCopyH h b.writer.WKeys).1
      ((tkmDeepCopyH h b.writer.WKeys).1.readEpk
        b.writer.TLFEphemeralPublicKeys)
  -- abbreviations
  set hW := (tkmDeepCopyH h b.writer.WKeys).1 with hhW
  set rW := (tkmDeepCopyH h b.writer.WKeys).2 with hrW
  set hE := (hW.allocEpk (hW.readEpk b.writer.TLFEphemeralPublicKeys)).1
    with hhE
  set rE := (hW.allocEpk (hW.readEpk b.writer.TLFEphemeralPublicKeys)).2
    with hrE
  have hRbound : ∀ p ∈ hE.readTkm b.reader.RKeys, p.2 < hE.next := by
    intro p hp
    rw [heapLE_readTkm (heapLE_trans wLE eLE) b.reader.RKeys hbR] at hp
    have := hbRin p hp
    have h1 := wLE.1
    have h2 := eLE.1
    omega
  obtain ⟨rLE, rRef, rRefLt, rIn, rView⟩ :=
    tkmDeepCopyH_spec hE b.reader.RKeys hRbound
  set hR := (tkmDeepCopyH hE b.reader.RKeys).1 with hhR
  set rR := (tkmDeepCopyH hE b.reader.RKeys).2 with hrR
  have hresHeap : (tlfKeyBundleDeepCopyH h b).1 = hR := rfl
  have hresW : (tlfKeyBundleDeepCopyH h b).2.writer.WKeys = rW := rfl
  have hresE : (tlfKeyBundleDeepCopyH h b).2.writer.TLFEphemeralPublicKeys
      = rE := rfl
  have hresR : (tlfKeyBundleDeepCopyH h b).2.reader.RKeys = rR := rfl
  have hresP : (tlfKeyBundleDeepCopyH h b).2.writer.TLFPublicKey =
      b.writer.TLFPublicKey := rfl
  have hLEhW : heapLE h hW := wLE
  have hLEhE : heapLE h hE := heapLE_trans wLE eLE
  have hLEhR : heapLE h hR := heapLE_trans hLEhE rLE
  have hWnextLE : hW.next ≤ hE.next := eLE.1
  have hEnextLE : hE.next ≤ hR.next := rLE.1
  rw [hresHeap, hresW, hresE, hresR]
  refine ⟨hLEhR, wRef, ?_, ?_, ?_, ?_, ?_⟩
  · rw [eRef]
    exact hLEhW.1
  · have := hLEhE.1
    omega
  · intro p hp
    have hlt : rW < hE.next := by
      have := eLE.1
      omega
    rw [heapLE_readTkm rLE rW hlt] at hp
    rw [heapLE_readTkm eLE rW wRefLt] at hp
    exact (wIn p hp).1
  · intro p hp
    have h1 := (rIn p hp).1
    have h2 := hLEhE.1
    omega
  · unfold Heap.viewBundle
    rw [hresP, hresW, hresE, hresR]
    have hinW : ∀ p ∈ hW.readTkm rW, p.2 < hW.next := by
      intro p hp
      exact (wIn p hp).2
    have hviewW : hR.viewKeyMap rW = h.viewKeyMap b.writer.WKeys := by
      rw [← wView]
      exact heapLE_viewKeyMap (heapLE_trans eLE rLE) rW wRefLt hinW
    have hepk : hR.readEpk rE = h.readEpk b.writer.TLFEphemeralPublicKeys
        := by
      have hlt : rE < hE.next := by
        rw [eRef, eNext]
        omega
      rw [heapLE_readEpk rLE rE hlt, eRef, eRead]
      exact heapLE_readEpk wLE b.writer.TLFEphemeralPublicKeys hbE
    have hviewR : hR.viewKeyMap rR = h.viewKeyMap b.reader.RKeys := by
      rw [rView]
      exact heapLE_viewKeyMap hLEhE b.reader.RKeys hbR hbRin
    rw [hviewW, hepk, hviewR]

/-- Writing a key-map entry through a reference distinct from a bundle's
key-map references leaves that bundle's view unchanged. -/
theorem setTkmEntry_viewBundle (h2 : Heap) (r : Nat) (u : UID) (br : Nat)
    (b : TLFKeyBundleH) (hw : b.writer.WKeys ≠ r)
    (hrr : b.reader.RKeys ≠ r) :
    (h2.setTkmEntry r u br).viewBundle b = h2.viewBundle b := by
  have h1 : (h2.setTkmEntry r u br).readTkm b.writer.WKeys =
      h2.readTkm b.writer.WKeys := by
    unfold Heap.readTkm Heap.setTkmEntry
    rw [alistSet_find?_ne _ _ _ _ hw]
  have h2' : (h2.setTkmEntry r u br).readTkm b.reader.RKeys =
      h2.readTkm b.reader.RKeys := by
    unfold Heap.readTkm Heap.setTkmEntry
    rw [alistSet_find?_ne _ _ _ _ hrr]
  unfold Heap.viewBundle Heap.viewKeyMap
  rw [h1, h2']
  rfl

/-- Writing a user-bundle entry through a reference distinct from every
user-bundle reference reachable from a bundle leaves that bundle's view
unchanged. -/
theorem setUckbEntry_viewBundle (h2 : Heap) (r : Nat) (kid : KID)
    (info : TLFCryptKeyInfo) (b : TLFKeyBundleH)
    (hin : ∀ p ∈ h2.readTkm b.writer.WKeys, p.2 ≠ r)
    (hin2 : ∀ p ∈ h2.readTkm b.reader.RKeys, p.2 ≠ r) :
    (h2.setUckbEntry r kid info).viewBundle b = h2.viewBundle b := by
  have htkmW : (h2.setUckbEntry r kid info).readTkm b.writer.WKeys =
      h2.readTkm b.writer.WKeys := rfl
  have htkmR : (h2.setUckbEntry r kid info).readTkm b.reader.RKeys =
      h2.readTkm b.reader.RKeys := rfl
  unfold Heap.viewBundle Heap.viewKeyMap
  rw [htkmW, htkmR]
  simp only [Prod.mk.injEq]
  refine ⟨?_, by trivial, by trivial, ?_⟩
  · refine List.map_congr_left ?_
    intro p hp
    have : (h2.setUckbEntry r kid info).readUckb p.2 = h2.readUckb p.2
        := by
      unfold Heap.readUckb Heap.setUckbEntry
      rw [alistSet_find?_ne _ _ _ _ (hin p hp)]
    rw [this]
  · refine List.map_congr_left ?_
    intro p hp
    have : (h2.setUckbEntry r kid info).readUckb p.2 = h2.readUckb p.2
        := by
      unfold Heap.readUckb Heap.setUckbEntry
      rw [alistSet_find?_ne _ _ _ _ (hin2 p hp)]
    rw [this]

/-- Appending to the ephemeral list through a reference distinct from a
bundle's ephemeral-list reference leaves that bundle's view unchanged. -/
theorem appendEpk_viewBundle (h2 : Heap) (r : Nat)
    (e : TLFEphemeralPublicKey) (b : TLFKeyBundleH)
    (hne : b.writer.TLFEphemeralPublicKeys ≠ r) :
    (h2.appendEpk r e).viewBundle b = h2.viewBundle b := by
  have hepk : (h2.appendEpk r e).readEpk b.writer.TLFEphemeralPublicKeys
      = h2.readEpk b.writer.TLFEphemeralPublicKeys := by
    unfold Heap.readEpk Heap.appendEpk
    rw [alistSet_find?_ne _ _ _ _ hne]
  unfold Heap.viewBundle
  rw [hepk]
  rfl

/-- C10: `DeepCopy` returns a bundle whose dereferenced view equals the
original's at every nested level (per-user maps with their per-device
records, folder public key, ephemeral key list), and mutating the copy's
per-user maps (outer key-map entries or inner per-device entries) or its
ephemeral key list leaves the original bundle's view unchanged. -/
theorem deepCopy_equal_and_independent (h : Heap) (b : TLFKeyBundleH)
    (hwf : bundleRefsBound h b) :
    (tlfKeyBundleDeepCopyH h b).1.viewBundle
      (tlfKeyBundleDeepCopyH h b).2 = h.viewBundle b ∧
    (tlfKeyBundleDeepCopyH h b).1.viewBundle b = h.viewBundle b ∧
    (∀ u br, ((tlfKeyBundleDeepCopyH h b).1.setTkmEntry
        (tlfKeyBundleDeepCopyH h b).2.writer.WKeys u br).viewBundle b =
      (tlfKeyBundleDeepCopyH h b).1.viewBundle b) ∧
    (∀ u br, ((tlfKeyBundleDeepCopyH h b).1.setTkmEntry
        (tlfKeyBundleDeepCopyH h b).2.reader.RKeys u br).viewBundle b =
      (tlfKeyBundleDeepCopyH h b).1.viewBundle b) ∧
    (∀ p ∈ (tlfKeyBundleDeepCopyH h b).1.readTkm
        (tlfKeyBundleDeepCopyH h b).2.writer.WKeys, ∀ kid info,
      ((tlfKeyBundleDeepCopyH h b).1.setUckbEntry p.2 kid info).viewBundle
        b = (tlfKeyBundleDeepCopyH h b).1.viewBundle b) ∧
    (∀ p ∈ (tlfKeyBundleDeepCopyH h b).1.readTkm
        (tlfKeyBundleDeepCopyH h b).2.reader.RKeys, ∀ kid info,
      ((tlfKeyBundleDeepCopyH h b).1.setUckbEntry p.2 kid info).viewBundle
        b = (tlfKeyBundleDeepCopyH h b).1.viewBundle b) ∧
    (∀ e, ((tlfKeyBundleDeepCopyH h b).1.appendEpk
        (tlfKeyBundleDeepCopyH h b).2.writer.TLFEphemeralPublicKeys
        e).viewBundle b = (tlfKeyBundleDeepCopyH h b).1.viewBundle b) := by
  obtain ⟨cLE, cW, cE, cR, cWin, cRin, cView⟩ :=
    tlfKeyBundleDeepCopyH_spec h b hwf
  obtain ⟨hbW, hbE, hbR, hbWin, hbRin⟩ := hwf
  have hreadW : (tlfKeyBundleDeepCopyH h b).1.readTkm b.writer.WKeys =
      h.readTkm b.writer.WKeys := heapLE_readTkm cLE _ hbW
  have hreadR : (tlfKeyBundleDeepCopyH h b).1.readTkm b.reader.RKeys =
      h.readTkm b.reader.RKeys := heapLE_readTkm cLE _ hbR
  refine ⟨cView,
    heapLE_viewBundle cLE ⟨hbW, hbE, hbR, hbWin, hbRin⟩,
    ?_, ?_, ?_, ?_, ?_⟩
  · intro u br
    exact setTkmEntry_viewBundle _ _ u br b (by omega) (by omega)
  · intro u br
    exact setTkmEntry_viewBundle _ _ u br b (by omega) (by omega)
  · intro p hp kid info
    have hfresh := cWin p hp
    refine setUckbEntry_viewBundle _ _ kid info b ?_ ?_
    · intro q hq
      rw [hreadW] at hq
      have := hbWin q hq
      omega
    · intro q hq
      rw [hreadR] at hq
      have := hbRin q hq
      omega
  · intro p hp kid info
    have hfresh := cRin p hp
    refine setUckbEntry_viewBundle _ _ kid info b ?_ ?_
    · intro q hq
      rw [hreadW] at hq
      have := hbWin q hq
      omega
    · intro q hq
      rw [hreadR] at hq
      have := hbRin q hq
      omega
  · intro e
    exact appendEpk_viewBundle _ _ e b (by omega)

/-- Concrete heap fixture for the deep-copy witness: two user bundles,
two key maps (one writer, one reader), one ephemeral list. -/
def heapFx : Heap :=
  { uckbH := [(0, [(1, infoFx)]), (1, [(3, info3Fx)])],
    tkmH := [(2, [(0, 0)]), (3, [(2, 1)])],
    epkH := [(4, [⟨50⟩])],
    next := 5 }

/-- Concrete bundle living in `heapFx`. -/
def tkbHFx : TLFKeyBundleH := ⟨⟨2, ⟨7⟩, 4⟩, ⟨3⟩⟩

/-- Witness for C10 at a concrete heap and bundle. -/
theorem deepCopy_equal_and_independent_witness :
    bundleRefsBound heapFx tkbHFx ∧
    (tlfKeyBundleDeepCopyH heapFx tkbHFx).1.viewBundle
      (tlfKeyBundleDeepCopyH heapFx tkbHFx).2 =
      heapFx.viewBundle tkbHFx :=
  ⟨by decide,
    (deepCopy_equal_and_independent heapFx tkbHFx (by decide)).1⟩

end Libkbfs
